import Mathlib

/-!
# Simpleton texture utilities (src/src/Texture.cpp)

A shallow embedding of the functions of Texture.cpp and theorems about them.

Conventions of the embedding:

* uint is the 32-bit unsigned integer: values are naturals below 2 ^ 32 and every
  uint expression of the source is reduced modulo 2 ^ 32 where it is computed;
* size_t is the 64-bit unsigned integer, reduced modulo 2 ^ 64 likewise;
* a byte buffer is a function from the offset (counted from the pointer the
  caller passed) to a byte, a byte being a natural below 256; pointers into the
  buffer are offsets and pointer increments are exact;
* a float buffer of Sobel3x3 holds exact rationals and is addressed by the element
  index; the input and the output buffer of a function are distinct buffers;
* a for loop over 0 .. n-1 is forUpTo n; the two while loops of the mip
  geometry functions carry a fuel of 32 iterations, which is never exhausted on
  32-bit inputs (mipsLoop_fuel_irrelevant, pixelsLoop_fuel_irrelevant);
* the states of the buffer loops also keep, in order, the offsets read and the
  offsets written (ghost fields: the code has no such lists).
-/

namespace Simpleton

/-! ## Definitions -/

/-- Modelled from the spec: the MAX helper of MiscMath.h, which is not part of the
sources at hand. The spec lists it among the basic math helpers and uses it to floor
a dimension to a minimum of 1; it is the larger of its two arguments. -/
def MAX (a b : Nat) : Nat := if a > b then a else b

/-- Modelled from the spec: the type uint of Types.h, which is not part of the sources
at hand, is the 32-bit unsigned integer; this is the number of its values. -/
abbrev UINT_SIZE : Nat := 2 ^ 32

/-- Number of values of the 64-bit size_t. -/
abbrev SIZE_T_SIZE : Nat := 2 ^ 64

/-- The while loop of CountTextureMips (Texture.cpp lines 30-39) on the local
variables nTextureWidth, nTextureHeight, nTextureDepth, nMips. -/
def mipsLoop : Nat → Nat → Nat → Nat → Nat → Nat
  | 0, _, _, _, nMips => nMips
  | fuel + 1, w, h, d, nMips =>
    if w > 1 ∨ h > 1 ∨ d > 1 then
      mipsLoop fuel (MAX (w >>> 1) 1) (MAX (h >>> 1) 1) (MAX (d >>> 1) 1)
        ((nMips + 1) % UINT_SIZE)
    else nMips

/-- CountTextureMips (Texture.cpp lines 24-41). -/
def CountTextureMips (nTextureWidth nTextureHeight nTextureDepth : Nat) : Nat :=
  mipsLoop 32 (MAX nTextureWidth 1) (MAX nTextureHeight 1) (MAX nTextureDepth 1) 0

/-- The while loop of CountTexturePixels (Texture.cpp lines 52-61) on the local
variables nTextureWidth, nTextureHeight, nTextureDepth, nTexels. -/
def pixelsLoop : Nat → Nat → Nat → Nat → Nat → Nat
  | 0, _, _, _, nTexels => nTexels
  | fuel + 1, w, h, d, nTexels =>
    if w > 1 ∨ h > 1 ∨ d > 1 then
      pixelsLoop fuel (MAX (w >>> 1) 1) (MAX (h >>> 1) 1) (MAX (d >>> 1) 1)
        ((nTexels + (w * h * d) % UINT_SIZE) % UINT_SIZE)
    else nTexels

/-- CountTexturePixels (Texture.cpp lines 43-63). The argument nMips is replaced by
CountTextureMips when it is 0 (lines 45-46) and is not read afterwards. -/
def CountTexturePixels (nTextureWidth nTextureHeight nTextureDepth nMips : Nat) : Nat :=
  let _nMips := if nMips = 0 then
    CountTextureMips nTextureWidth nTextureHeight nTextureDepth else nMips
  pixelsLoop 32 (MAX nTextureWidth 1) (MAX nTextureHeight 1) (MAX nTextureDepth 1) 0

/-- Extent of one axis at mip level k: the axis shifted right k times, floored to 1. -/
def levelDim (n k : Nat) : Nat := max 1 (n >>> k)

/-- Texel count of mip level k of a width x height x depth texture. -/
def levelTexels (w h d k : Nat) : Nat := levelDim w k * levelDim h k * levelDim d k

/-- A for loop running its body for i = 0, 1, .., n-1 in that order. -/
def forUpTo {σ : Type} : Nat → (Nat → σ → σ) → σ → σ
  | 0, _, s => s
  | n + 1, body, s => body n (forUpTo n body s)

/-- Modelled from the spec: the type uint8 of Types.h, which is not part of the sources
at hand, is the unsigned byte of the packed pixel buffers. -/
abbrev Byte := Fin 256

/-- A byte buffer, addressed by the offset from its first byte. -/
abbrev Mem := Nat → Byte

/-- Store of a byte at an offset. -/
def store (m : Mem) (p : Nat) (v : Byte) : Mem := fun q => if q = p then v else m q

/-- Conversion of a uint to uint8 on assignment: the low 8 bits. -/
def toByte (v : Nat) : Byte := ⟨v % 256, Nat.mod_lt v (by decide)⟩

/-- State of the sub-level loops shared by the two mip generators: the output
buffer, the write pointer pCurrentMip, the read pointer pTopMip, and the offsets read
and written so far. -/
structure MipState where
  mem : Mem
  pCurrentMip : Nat
  pTopMip : Nat
  reads : List Nat
  writes : List Nat

/-- The uint v of lines 99-100 / 132-133: the sum of the four bytes pL0[8*x+c],
pL0[8*x+c+4], pL1[8*x+c], pL1[8*x+c+4]. -/
def boxSum (m : Mem) (pL0 pL1 x c : Nat) : Nat :=
  ((m (pL0 + (8 * x + c) % UINT_SIZE)).val + (m (pL0 + (8 * x + c + 4) % UINT_SIZE)).val +
   (m (pL1 + (8 * x + c) % UINT_SIZE)).val + (m (pL1 + (8 * x + c + 4) % UINT_SIZE)).val)
    % UINT_SIZE

/-- Body of the channel loop (lines 97-102 / 130-135): the sum v is formed and v>>2 is
stored through pCurrentMip, which then advances by one byte. -/
def chanStep (pL0 pL1 x c : Nat) (s : MipState) : MipState :=
  { s with
    mem := store s.mem s.pCurrentMip (toByte (boxSum s.mem pL0 pL1 x c >>> 2))
    pCurrentMip := s.pCurrentMip + 1
    reads := s.reads ++ [pL0 + (8 * x + c) % UINT_SIZE, pL0 + (8 * x + c + 4) % UINT_SIZE,
                         pL1 + (8 * x + c) % UINT_SIZE, pL1 + (8 * x + c + 4) % UINT_SIZE]
    writes := s.writes ++ [s.pCurrentMip] }

/-- The x loop and, inside it, the c loop of one output row (lines 95-103 / 128-136)
for the row pointers pL0 and pL1. -/
def rowTexels (pL0 pL1 nCurrentWidth : Nat) (s : MipState) : MipState :=
  forUpTo nCurrentWidth (fun x t => forUpTo 4 (fun c u => chanStep pL0 pL1 x c u) t) s

/-- Body of the y loop (lines 91-106 / 124-139): one output row of nCurrentWidth texels,
then pTopMip advances by 16*nCurrentWidth. -/
def mipRow (nCurrentWidth : Nat) (s : MipState) : MipState :=
  let pL0 := s.pTopMip
  let pL1 := s.pTopMip + (8 * nCurrentWidth) % UINT_SIZE
  let s1 := rowTexels pL0 pL1 nCurrentWidth s
  { s1 with pTopMip := s1.pTopMip + (16 * nCurrentWidth) % UINT_SIZE }

/-- The y loop of one mip level (lines 91-106 / 124-139). -/
def mipLevel (nCurrentWidth nCurrentHeight : Nat) (s : MipState) : MipState :=
  forUpTo nCurrentHeight (fun _y t => mipRow nCurrentWidth t) s

/-- The m loop (lines 87-109 / 120-142) run for a given number of iterations from
the current nTopWidth, nTopHeight: every iteration halves the two extents
(floored to 1), generates one level and makes the halved extents the current ones. -/
def mipLevels : Nat → Nat → Nat → MipState → MipState
  | 0, _, _, s => s
  | k + 1, nTopWidth, nTopHeight, s =>
    let nCurrentWidth := MAX 1 (nTopWidth >>> 1)
    let nCurrentHeight := MAX 1 (nTopHeight >>> 1)
    mipLevels k nCurrentWidth nCurrentHeight (mipLevel nCurrentWidth nCurrentHeight s)

/-- The mip count in force after lines 68-69 / 115-116. -/
def effectiveMips (nTopWidth nTopHeight nMipsToGenerate : Nat) : Nat :=
  if nMipsToGenerate = 0 then CountTextureMips nTopWidth nTopHeight 1 else nMipsToGenerate

/-- GenerateMips_RGBA_InPlace (Texture.cpp lines 113-143) on the buffer pInOut; the
loop for m = 1 .. nMipsToGenerate-1 has nMipsToGenerate - 1 iterations. The result is
the final state; its field mem is the buffer after the call. -/
def GenerateMips_RGBA_InPlace (pInOut : Mem) (nTopWidth nTopHeight nMipsToGenerate : Nat) :
    MipState :=
  let nMipsToGenerate := effectiveMips nTopWidth nTopHeight nMipsToGenerate
  mipLevels (nMipsToGenerate - 1) nTopWidth nTopHeight
    { mem := pInOut
      pCurrentMip := (4 * nTopWidth * nTopHeight) % UINT_SIZE
      pTopMip := 0
      reads := []
      writes := [] }

/-- State of the top-level expansion loop of GenerateMips_RGB_To_RGBA. -/
structure ExpandState where
  mem : Mem
  pCurrentMip : Nat
  pInBytes : Nat
  writes : List Nat

/-- Body of the x loop of the expansion (lines 77-82): one RGB pixel becomes one
RGBA pixel with alpha 255. -/
def expandPixel (pIn : Mem) (s : ExpandState) : ExpandState :=
  let p := s.pCurrentMip
  let m0 := store s.mem p (pIn s.pInBytes)
  let m1 := store m0 (p + 1) (pIn (s.pInBytes + 1))
  let m2 := store m1 (p + 2) (pIn (s.pInBytes + 2))
  let m3 := store m2 (p + 3) 255
  { mem := m3
    pCurrentMip := p + 4
    pInBytes := s.pInBytes + 3
    writes := s.writes ++ [p, p + 1, p + 2, p + 3] }

/-- The expansion loops (lines 73-84). -/
def expandTop (pIn : Mem) (nTopWidth nTopHeight : Nat) (s : ExpandState) : ExpandState :=
  forUpTo nTopHeight (fun _y t => forUpTo nTopWidth (fun _x u => expandPixel pIn u) t) s

/-- GenerateMips_RGB_To_RGBA (Texture.cpp lines 66-110) on the output buffer pOut and the
input buffer pIn. -/
def GenerateMips_RGB_To_RGBA (pOut pIn : Mem) (nTopWidth nTopHeight nMipsToGenerate : Nat) :
    MipState :=
  let nMipsToGenerate := effectiveMips nTopWidth nTopHeight nMipsToGenerate
  let e := expandTop pIn nTopWidth nTopHeight
    { mem := pOut, pCurrentMip := 0, pInBytes := 0, writes := [] }
  mipLevels (nMipsToGenerate - 1) nTopWidth nTopHeight
    { mem := e.mem
      pCurrentMip := e.pCurrentMip
      pTopMip := 0
      reads := []
      writes := e.writes }

/-- The RGB image expanded to RGBA, as the spec words it: pixel i of the output is
(R, G, B, 255) of pixel i of the input; bytes from offset 4*w*h on are those of the
given buffer. -/
def expandedTop (pOut pIn : Mem) (w h : Nat) : Mem := fun q =>
  if q < 4 * (w * h) then
    (if q % 4 = 3 then 255 else pIn (3 * (q / 4) + q % 4))
  else pOut q

/-- Texel count of the k levels generated by k iterations of the m loop started at
extents nTopWidth x nTopHeight. -/
def chainTexels : Nat → Nat → Nat → Nat
  | 0, _, _ => 0
  | k + 1, tw, th =>
    MAX 1 (tw >>> 1) * MAX 1 (th >>> 1) + chainTexels k (MAX 1 (tw >>> 1)) (MAX 1 (th >>> 1))

/-- The state t is the state s after k stores through pCurrentMip: the pointer has
advanced by k, the k offsets from the old pointer on were written in increasing order,
and every byte outside them is as in s. -/
def Advanced (s t : MipState) (k : Nat) : Prop :=
  t.pCurrentMip = s.pCurrentMip + k ∧
  t.writes = s.writes ++ List.range' s.pCurrentMip k ∧
  ∀ q, q < s.pCurrentMip ∨ s.pCurrentMip + k ≤ q → t.mem q = s.mem q

/-- Two states with the same buffer and the same two pointers (the lists of offsets
read and written may differ). -/
def SameCore (s t : MipState) : Prop :=
  s.mem = t.mem ∧ s.pCurrentMip = t.pCurrentMip ∧ s.pTopMip = t.pTopMip

/-- The state t is the state s after the first k bytes of one output row were
stored: byte j of the row is the box average, formed from the buffer of s, of channel
j % 4 of output column j / 4. -/
def RowFilled (s t : MipState) (pL0 pL1 k : Nat) : Prop :=
  Advanced s t k ∧ t.pTopMip = s.pTopMip ∧
  ∀ j, j < k →
    t.mem (s.pCurrentMip + j) = toByte (boxSum s.mem pL0 pL1 (j / 4) (j % 4) >>> 2)

/-- The state t is the state s after the first y rows of a level of width
nCurrentWidth were generated, every texel being the box average formed from the
buffer of s with the row pointers the code uses. -/
def LevelFilled (s t : MipState) (cw y : Nat) : Prop :=
  Advanced s t (4 * (cw * y)) ∧ t.pTopMip = s.pTopMip + 16 * cw * y ∧
  ∀ r x c, r < y → x < cw → c < 4 →
    t.mem (s.pCurrentMip + 4 * (r * cw + x) + c) =
      toByte (boxSum s.mem (s.pTopMip + 16 * cw * r) (s.pTopMip + 16 * cw * r + 8 * cw) x c
        >>> 2)

/-- A buffer that is 0 everywhere except for the byte v at offset p. -/
def spike (p : Nat) (v : Byte) : Mem := fun q => if q = p then v else 0

/-- The state t is the state s of the expansion loop after k pixels were expanded. -/
def Expanded (pIn : Mem) (s t : ExpandState) (k : Nat) : Prop :=
  t.pCurrentMip = s.pCurrentMip + 4 * k ∧
  t.pInBytes = s.pInBytes + 3 * k ∧
  t.writes = s.writes ++ List.range' s.pCurrentMip (4 * k) ∧
  ∀ q, t.mem q =
    if s.pCurrentMip ≤ q ∧ q < s.pCurrentMip + 4 * k then
      (if (q - s.pCurrentMip) % 4 = 3 then 255
       else pIn (s.pInBytes + 3 * ((q - s.pCurrentMip) / 4) + (q - s.pCurrentMip) % 4))
    else s.mem q

/-- The value y - 1 or x - 1 in size_t arithmetic. -/
def sizePred (x : Nat) : Nat := (x + SIZE_T_SIZE - 1) % SIZE_T_SIZE

/-- The value y + 1 or x + 1 in size_t arithmetic. -/
def sizeSucc (x : Nat) : Nat := (x + 1) % SIZE_T_SIZE

/-- The index x0 (line 174), and y0 (line 164) with height for width. -/
def sobelIdx0 (width x : Nat) : Nat := sizePred x % width

/-- The index x2 (line 176), and y2 (line 166) with height for width. -/
def sobelIdx2 (width x : Nat) : Nat := sizeSucc x % width

/-- State of the Sobel3x3 loops: the gradient buffer and the element indices read (of
the height field) and written (of the gradient buffer) so far. -/
structure SobelState where
  grad : Nat → ℚ
  reads : List Nat
  writes : List Nat

/-- The value dx of lines 181-182 for the row offsets h0, h1, h2. -/
def sobelDx (pHeightIn : Nat → ℚ) (h0 h1 h2 x0 x2 : Nat) : ℚ :=
  (pHeightIn (h0 + x0) + 2 * pHeightIn (h1 + x0) + pHeightIn (h2 + x0)) -
  (pHeightIn (h0 + x2) + 2 * pHeightIn (h1 + x2) + pHeightIn (h2 + x2))

/-- The value dy of lines 187-188 for the row offsets h0, h2. -/
def sobelDy (pHeightIn : Nat → ℚ) (h0 h2 x0 x1 x2 : Nat) : ℚ :=
  (pHeightIn (h0 + x0) + 2 * pHeightIn (h0 + x1) + pHeightIn (h0 + x2)) -
  (pHeightIn (h2 + x0) + 2 * pHeightIn (h2 + x1) + pHeightIn (h2 + x2))

/-- Body of the x loop of Sobel3x3 (lines 174-192). The index pix is even and below
2 ^ 64, so pix + 1 does not wrap. -/
def sobelTexel (pHeightIn : Nat → ℚ) (fScaleFactor : ℚ) (width y h0 h1 h2 x : Nat)
    (s : SobelState) : SobelState :=
  let x0 := sobelIdx0 width x
  let x1 := x
  let x2 := sobelIdx2 width x
  let dx := sobelDx pHeightIn h0 h1 h2 x0 x2
  let dy := sobelDy pHeightIn h0 h2 x0 x1 x2
  let pix := (2 * (y * width + x)) % SIZE_T_SIZE
  let g0 := Function.update s.grad (pix + 0) (fScaleFactor * dx * (1 / 8))
  let g1 := Function.update g0 (pix + 1) (fScaleFactor * dy * (1 / 8))
  { grad := g1
    reads := s.reads ++ [h0 + x0, h1 + x0, h2 + x0, h0 + x2, h1 + x2, h2 + x2,
                         h0 + x0, h0 + x1, h0 + x2, h2 + x0, h2 + x1, h2 + x2]
    writes := s.writes ++ [pix + 0, pix + 1] }

/-- Body of the y loop of Sobel3x3 (lines 164-193). -/
def sobelRow (pHeightIn : Nat → ℚ) (fScaleFactor : ℚ) (width height y : Nat)
    (s : SobelState) : SobelState :=
  let y0 := sobelIdx0 height y
  let y1 := y
  let y2 := sobelIdx2 height y
  let h0 := (y0 * width) % SIZE_T_SIZE
  let h1 := (y1 * width) % SIZE_T_SIZE
  let h2 := (y2 * width) % SIZE_T_SIZE
  forUpTo width (fun x t => sobelTexel pHeightIn fScaleFactor width y h0 h1 h2 x t) s

/-- Sobel3x3 (Texture.cpp lines 160-195) on the gradient buffer pGradOut and the
height field pHeightIn. -/
def Sobel3x3 (pGradOut pHeightIn : Nat → ℚ) (fScaleFactor : ℚ) (width height : Nat) :
    SobelState :=
  forUpTo height (fun y t => sobelRow pHeightIn fScaleFactor width height y t)
    { grad := pGradOut, reads := [], writes := [] }

/-- The first output float of texel (x, y), as the code forms it (line 191). -/
def sobelGradX (pHeightIn : Nat → ℚ) (fScaleFactor : ℚ) (width height y x : Nat) : ℚ :=
  fScaleFactor *
    sobelDx pHeightIn ((sobelIdx0 height y * width) % SIZE_T_SIZE) ((y * width) % SIZE_T_SIZE)
      ((sobelIdx2 height y * width) % SIZE_T_SIZE) (sobelIdx0 width x) (sobelIdx2 width x) *
    (1 / 8)

/-- The second output float of texel (x, y), as the code forms it (line 192). -/
def sobelGradY (pHeightIn : Nat → ℚ) (fScaleFactor : ℚ) (width height y x : Nat) : ℚ :=
  fScaleFactor *
    sobelDy pHeightIn ((sobelIdx0 height y * width) % SIZE_T_SIZE)
      ((sobelIdx2 height y * width) % SIZE_T_SIZE) (sobelIdx0 width x) x (sobelIdx2 width x) *
    (1 / 8)

/-- The gradient buffer g holds the outputs of the first k texels in row-major order. -/
def SobelDone (pHeightIn : Nat → ℚ) (fScaleFactor : ℚ) (width height : Nat) (g : Nat → ℚ)
    (k : Nat) : Prop :=
  ∀ r i, i < width → r * width + i < k →
    g (2 * (r * width + i)) = sobelGradX pHeightIn fScaleFactor width height r i ∧
    g (2 * (r * width + i) + 1) = sobelGradY pHeightIn fScaleFactor width height r i

/-- A dimension of 0 replaced by 1, any other dimension kept. -/
def zeroToOne (x : Nat) : Nat := if x = 0 then 1 else x

/-- The smallest of the four source bytes of one channel of one output texel. -/
def srcMin (m : Mem) (pL0 pL1 x c : Nat) : Nat :=
  min (min (m (pL0 + (8 * x + c) % UINT_SIZE)).val (m (pL0 + (8 * x + c + 4) % UINT_SIZE)).val)
      (min (m (pL1 + (8 * x + c) % UINT_SIZE)).val (m (pL1 + (8 * x + c + 4) % UINT_SIZE)).val)

/-- The largest of the four source bytes of one channel of one output texel. -/
def srcMax (m : Mem) (pL0 pL1 x c : Nat) : Nat :=
  max (max (m (pL0 + (8 * x + c) % UINT_SIZE)).val (m (pL0 + (8 * x + c + 4) % UINT_SIZE)).val)
      (max (m (pL1 + (8 * x + c) % UINT_SIZE)).val (m (pL1 + (8 * x + c + 4) % UINT_SIZE)).val)

/-- A buffer holding the byte lo below offset b and the byte hi from offset b on. -/
def twoTone (b : Nat) (lo hi : Byte) : Mem := fun q => if q < b then lo else hi

/-- Texel offset of level m in a chain whose level 0 is w x h and whose levels are
stored one after the other, each axis halved from level to level. -/
def chainStart : Nat → Nat → Nat → Nat
  | 0, _, _ => 0
  | m + 1, w, h => w * h + chainStart m (w / 2) (h / 2)

/-- The state t of the Sobel3x3 loops after k texels: the output indices 0 .. 2k-1 were
written, in that order, and every index read lies inside the height field. -/
def SobelLogged (width height : Nat) (t : SobelState) (k : Nat) : Prop :=
  t.writes = List.range (2 * k) ∧ ∀ i, i ∈ t.reads → i < width * height


/-! ## Mip geometry -/

theorem MAX_eq_max (a b : Nat) : MAX a b = max a b := by
  unfold MAX; split <;> omega

theorem levelDim_eq (n k : Nat) : levelDim n k = max 1 (n / 2 ^ k) := by
  simp [levelDim, Nat.shiftRight_eq_div_pow]

theorem levelDim_zero (n : Nat) : levelDim n 0 = max 1 n := by
  simp [levelDim]

theorem levelDim_halve (n k : Nat) :
    levelDim (max (n / 2) 1) k = levelDim n (k + 1) := by
  rw [levelDim_eq, levelDim_eq, pow_succ, Nat.mul_comm, ← Nat.div_div_eq_div_mul]
  rcases Nat.eq_zero_or_pos (n / 2) with h0 | h0
  · rw [h0]
    have : (1 : Nat) / 2 ^ k ≤ 1 := Nat.div_le_self _ _
    simp only [Nat.zero_div]
    rw [show max 0 1 = 1 from rfl]
    omega
  · rw [show max (n / 2) 1 = n / 2 by omega]

theorem levelDim_eq_one_iff (n k : Nat) : levelDim n k = 1 ↔ n < 2 ^ (k + 1) := by
  rw [levelDim_eq, pow_succ]
  have hp : 0 < 2 ^ k := Nat.pow_pos (by decide)
  have h := Nat.div_lt_iff_lt_mul (x := n) (y := 2) hp
  rw [Nat.mul_comm] at h
  constructor
  · intro h1
    exact h.mp (by omega)
  · intro h1
    have := h.mpr h1
    omega

theorem levelTexels_halve (w h d k : Nat) :
    levelTexels (max (w / 2) 1) (max (h / 2) 1) (max (d / 2) 1) k =
      levelTexels w h d (k + 1) := by
  simp only [levelTexels, levelDim_halve]

theorem levelTexels_max_one (w h d k : Nat) :
    levelTexels (max w 1) (max h 1) (max d 1) k = levelTexels w h d k := by
  have key : ∀ n, levelDim (max n 1) k = levelDim n k := by
    intro n
    rcases Nat.eq_zero_or_pos n with h0 | h0
    · subst h0
      rw [levelDim_eq, levelDim_eq]
      have : (1 : Nat) / 2 ^ k ≤ 1 := Nat.div_le_self _ _
      simp only [Nat.zero_div]
      rw [show max 0 1 = 1 from rfl]
      omega
    · rw [show max n 1 = n by omega]
  simp only [levelTexels, key]

theorem halved_max (w h d : Nat) :
    max (max (w / 2) 1) (max (max (h / 2) 1) (max (d / 2) 1)) =
      max (max w (max h d) / 2) 1 := by
  omega

/-- Closed form of the mip counting loop: with enough fuel it adds the binary
logarithm of the largest extent to the counter. -/
theorem mipsLoop_eq (fuel : Nat) : ∀ (w h d n : Nat), 1 ≤ w → 1 ≤ h → 1 ≤ d →
    max w (max h d) < 2 ^ fuel → n + Nat.log 2 (max w (max h d)) < UINT_SIZE →
    mipsLoop fuel w h d n = n + Nat.log 2 (max w (max h d)) := by
  induction fuel with
  | zero => intro w h d n hw hh hd hm _; simp at hm; omega
  | succ f ih =>
    intro w h d n hw hh hd hm hn
    unfold mipsLoop
    by_cases hc : w > 1 ∨ h > 1 ∨ d > 1
    · rw [if_pos hc]
      simp only [MAX_eq_max, Nat.shiftRight_eq_div_pow, pow_one]
      have hm2 : 2 ≤ max w (max h d) := by omega
      have hlog := Nat.log_of_one_lt_of_le (b := 2) (by decide) hm2
      have hmax := halved_max w h d
      have hmax2 : max (max w (max h d) / 2) 1 = max w (max h d) / 2 := by omega
      rw [hlog] at hn
      rw [pow_succ] at hm
      have hn1 : (n + 1) % UINT_SIZE = n + 1 := Nat.mod_eq_of_lt (by omega)
      rw [hn1, ih _ _ _ _ (by omega) (by omega) (by omega) (by rw [hmax, hmax2]; omega)
        (by rw [hmax, hmax2]; omega), hmax, hmax2, hlog]
      omega
    · rw [if_neg hc]
      have : max w (max h d) = 1 := by omega
      rw [this]; simp

theorem log_lt_32 (m : Nat) (hm : m < 2 ^ 32) : Nat.log 2 m < 32 := by
  rcases Nat.eq_zero_or_pos m with h0 | h0
  · subst h0; simp
  · exact (Nat.lt_pow_iff_log_lt (by decide) (by omega)).mp hm

theorem CountTextureMips_eq_log (w h d : Nat) (hw : w < 2 ^ 32) (hh : h < 2 ^ 32)
    (hd : d < 2 ^ 32) :
    CountTextureMips w h d = Nat.log 2 (max (max w h) (max d 1)) := by
  unfold CountTextureMips
  simp only [MAX_eq_max]
  have hm : max (max w 1) (max (max h 1) (max d 1)) = max (max w h) (max d 1) := by omega
  have hlt : max (max w h) (max d 1) < 2 ^ 32 := by
    have : (1 : Nat) < 2 ^ 32 := by decide
    omega
  have hl := log_lt_32 _ hlt
  rw [mipsLoop_eq 32 _ _ _ 0 (by omega) (by omega) (by omega) (by rw [hm]; exact hlt)
    (by rw [hm]; simp only [UINT_SIZE]; have : (32:Nat) < 2 ^ 32 := by decide
        omega), hm]
  omega

/-- The fuel of the mip counting loop is never exhausted on 32-bit extents: any
larger fuel gives the same count. -/
theorem mipsLoop_fuel_irrelevant (fuel w h d : Nat) (hf : 32 ≤ fuel) (hw : w < 2 ^ 32)
    (hh : h < 2 ^ 32) (hd : d < 2 ^ 32) :
    mipsLoop fuel (MAX w 1) (MAX h 1) (MAX d 1) 0 = CountTextureMips w h d := by
  rw [CountTextureMips_eq_log w h d hw hh hd]
  simp only [MAX_eq_max]
  have hm : max (max w 1) (max (max h 1) (max d 1)) = max (max w h) (max d 1) := by omega
  have hlt : max (max w h) (max d 1) < 2 ^ 32 := by
    have : (1 : Nat) < 2 ^ 32 := by decide
    omega
  have hl := log_lt_32 _ hlt
  have hpow : (2 : Nat) ^ 32 ≤ 2 ^ fuel := Nat.pow_le_pow_right (by decide) hf
  rw [mipsLoop_eq fuel _ _ _ 0 (by omega) (by omega) (by omega) (by rw [hm]; omega)
    (by rw [hm]; simp only [UINT_SIZE]; have : (32:Nat) < 2 ^ 32 := by decide
        omega), hm]
  omega

/-- C1. For 32-bit width, height and depth, CountTextureMips is the binary logarithm
(rounded down) of m = max(width, height, depth, 1): it is the unique n with
2^n <= m < 2^(n+1), and it is the least number of halvings after which every axis
(floored to 1) is 1. CountTextureMips(1,1,1) = 0 and CountTextureMips(256,256,1) = 8. -/
theorem CountTextureMips_floor_log2 (w h d : Nat) (hw : w < 2 ^ 32) (hh : h < 2 ^ 32)
    (hd : d < 2 ^ 32) :
    CountTextureMips w h d = Nat.log 2 (max (max w h) (max d 1)) ∧
    2 ^ CountTextureMips w h d ≤ max (max w h) (max d 1) ∧
    max (max w h) (max d 1) < 2 ^ (CountTextureMips w h d + 1) ∧
    (∀ n, 2 ^ n ≤ max (max w h) (max d 1) → max (max w h) (max d 1) < 2 ^ (n + 1) →
      n = CountTextureMips w h d) ∧
    (∀ k, (levelDim w k = 1 ∧ levelDim h k = 1 ∧ levelDim d k = 1) ↔
      CountTextureMips w h d ≤ k) ∧
    CountTextureMips 1 1 1 = 0 ∧ CountTextureMips 256 256 1 = 8 := by
  have hlog := CountTextureMips_eq_log w h d hw hh hd
  have hm0 : max (max w h) (max d 1) ≠ 0 := by omega
  refine ⟨hlog, ?_, ?_, ?_, ?_, by decide, by decide⟩
  · rw [hlog]; exact Nat.pow_log_le_self 2 hm0
  · rw [hlog]; exact Nat.lt_pow_succ_log_self (by decide) _
  · intro n h1 h2
    rw [hlog]
    exact (Nat.log_eq_of_pow_le_of_lt_pow h1 h2).symm
  · intro k
    rw [hlog, levelDim_eq_one_iff, levelDim_eq_one_iff, levelDim_eq_one_iff,
      ← Nat.lt_succ_iff, ← Nat.lt_pow_iff_log_lt (by decide) hm0]
    omega

/-- Witness of C1 at a 640 x 480 x 1 texture. -/
theorem CountTextureMips_floor_log2_witness :
    CountTextureMips 640 480 1 = Nat.log 2 (max (max 640 480) (max 1 1)) ∧
    2 ^ CountTextureMips 640 480 1 ≤ max (max 640 480) (max 1 1) ∧
    max (max 640 480) (max 1 1) < 2 ^ (CountTextureMips 640 480 1 + 1) ∧
    (∀ n, 2 ^ n ≤ max (max 640 480) (max 1 1) → max (max 640 480) (max 1 1) < 2 ^ (n + 1) →
      n = CountTextureMips 640 480 1) ∧
    (∀ k, (levelDim 640 k = 1 ∧ levelDim 480 k = 1 ∧ levelDim 1 k = 1) ↔
      CountTextureMips 640 480 1 ≤ k) ∧
    CountTextureMips 1 1 1 = 0 ∧ CountTextureMips 256 256 1 = 8 :=
  CountTextureMips_floor_log2 640 480 1 (by decide) (by decide) (by decide)


/-- Closed form of the texel accumulation loop: with enough fuel it adds, modulo 2^32,
the texel counts of the levels 0 .. log2(largest extent) - 1 to the accumulator. -/
theorem pixelsLoop_eq (fuel : Nat) : ∀ (w h d acc : Nat), 1 ≤ w → 1 ≤ h → 1 ≤ d →
    max w (max h d) < 2 ^ fuel → acc < UINT_SIZE →
    pixelsLoop fuel w h d acc =
      (acc + ∑ k in Finset.range (Nat.log 2 (max w (max h d))), levelTexels w h d k)
        % UINT_SIZE := by
  induction fuel with
  | zero => intro w h d n hw hh hd hm _; simp at hm; omega
  | succ f ih =>
    intro w h d acc hw hh hd hm hacc
    unfold pixelsLoop
    by_cases hc : w > 1 ∨ h > 1 ∨ d > 1
    · rw [if_pos hc]
      simp only [MAX_eq_max, Nat.shiftRight_eq_div_pow, pow_one]
      have hm2 : 2 ≤ max w (max h d) := by omega
      have hlog := Nat.log_of_one_lt_of_le (b := 2) (by decide) hm2
      have hmax := halved_max w h d
      have hmax2 : max (max w (max h d) / 2) 1 = max w (max h d) / 2 := by omega
      rw [pow_succ] at hm
      rw [ih _ _ _ _ (by omega) (by omega) (by omega) (by rw [hmax, hmax2]; omega)
        (Nat.mod_lt _ (by decide)), hmax, hmax2, hlog, Finset.sum_range_succ']
      simp only [levelTexels_halve]
      have h0 : levelTexels w h d 0 = w * h * d := by
        simp only [levelTexels, levelDim_zero]
        rw [show max 1 w = w by omega, show max 1 h = h by omega, show max 1 d = d by omega]
      rw [h0]
      simp only [UINT_SIZE]
      omega
    · rw [if_neg hc]
      have : max w (max h d) = 1 := by omega
      rw [this]
      simp only [Nat.log_one_right, Finset.range_zero, Finset.sum_empty, Nat.add_zero]
      exact (Nat.mod_eq_of_lt hacc).symm

/-- CountTexturePixels is, modulo 2^32, the sum of the texel counts of the levels
0 .. CountTextureMips - 1, whatever nMips is. -/
theorem CountTexturePixels_eq (w h d nMips : Nat) (hw : w < 2 ^ 32) (hh : h < 2 ^ 32)
    (hd : d < 2 ^ 32) :
    CountTexturePixels w h d nMips =
      (∑ k in Finset.range (CountTextureMips w h d), levelTexels w h d k) % UINT_SIZE := by
  rw [CountTextureMips_eq_log w h d hw hh hd]
  unfold CountTexturePixels
  simp only [MAX_eq_max]
  have hm : max (max w 1) (max (max h 1) (max d 1)) = max (max w h) (max d 1) := by omega
  have hlt : max (max w h) (max d 1) < 2 ^ 32 := by
    have : (1 : Nat) < 2 ^ 32 := by decide
    omega
  rw [pixelsLoop_eq 32 _ _ _ 0 (by omega) (by omega) (by omega) (by rw [hm]; exact hlt)
    (by decide), hm]
  simp only [levelTexels_max_one, Nat.zero_add]

/-- The fuel of the texel accumulation loop is never exhausted on 32-bit extents. -/
theorem pixelsLoop_fuel_irrelevant (fuel w h d : Nat) (hf : 32 ≤ fuel) (hw : w < 2 ^ 32)
    (hh : h < 2 ^ 32) (hd : d < 2 ^ 32) :
    pixelsLoop fuel (MAX w 1) (MAX h 1) (MAX d 1) 0 = CountTexturePixels w h d 0 := by
  rw [CountTexturePixels_eq w h d 0 hw hh hd, CountTextureMips_eq_log w h d hw hh hd]
  simp only [MAX_eq_max]
  have hm : max (max w 1) (max (max h 1) (max d 1)) = max (max w h) (max d 1) := by omega
  have hlt : max (max w h) (max d 1) < 2 ^ 32 := by
    have : (1 : Nat) < 2 ^ 32 := by decide
    omega
  have hpow : (2 : Nat) ^ 32 ≤ 2 ^ fuel := Nat.pow_le_pow_right (by decide) hf
  rw [pixelsLoop_eq fuel _ _ _ 0 (by omega) (by omega) (by omega) (by rw [hm]; omega)
    (by decide), hm]
  simp only [levelTexels_max_one, Nat.zero_add]

theorem levelTexels_depth_one (w h k : Nat) :
    levelTexels w h 1 k = max 1 (w >>> k) * max 1 (h >>> k) := by
  have h1 : levelDim 1 k = 1 := by
    rw [levelDim_eq]
    have : (1 : Nat) / 2 ^ k ≤ 1 := Nat.div_le_self _ _
    omega
  unfold levelTexels
  rw [h1, Nat.mul_one]
  rfl

/-- C2. For 32-bit w and h such that the sum below does not reach 2^32,
CountTexturePixels(w,h,1,0) is the sum over k = 0 .. M-1 of max(1, w>>k) * max(1, h>>k),
M = CountTextureMips(w,h,1). For w = h = 4 it is 16 + 4 = 20. -/
theorem CountTexturePixels_2d_sum (w h : Nat) (hw : w < 2 ^ 32) (hh : h < 2 ^ 32)
    (hsum : ∑ k in Finset.range (CountTextureMips w h 1),
      max 1 (w >>> k) * max 1 (h >>> k) < 2 ^ 32) :
    CountTexturePixels w h 1 0 =
      ∑ k in Finset.range (CountTextureMips w h 1), max 1 (w >>> k) * max 1 (h >>> k) ∧
    CountTexturePixels 4 4 1 0 = 16 + 4 := by
  refine ⟨?_, by decide⟩
  rw [CountTexturePixels_eq w h 1 0 hw hh (by decide)]
  simp only [levelTexels_depth_one]
  exact Nat.mod_eq_of_lt hsum

/-- Witness of C2 at an 8 x 2 texture: the sum is 16 + 4 + 2. -/
theorem CountTexturePixels_2d_sum_witness :
    (∑ k in Finset.range (CountTextureMips 8 2 1),
      max 1 (8 >>> k) * max 1 (2 >>> k) < 2 ^ 32) ∧
    (CountTexturePixels 8 2 1 0 =
      ∑ k in Finset.range (CountTextureMips 8 2 1), max 1 (8 >>> k) * max 1 (2 >>> k) ∧
    CountTexturePixels 4 4 1 0 = 16 + 4) :=
  ⟨by decide, CountTexturePixels_2d_sum 8 2 (by decide) (by decide) (by decide)⟩

/-- C3, refuted as stated. For the 4 x 4 x 1 texture the levels below the top
(levels 1 and 2) hold 4 + 1 = 5 texels, while CountTexturePixels returns 20: the 16 texels
of the top level are part of the returned sum. -/
theorem CountTexturePixels_not_below_top :
    CountTextureMips 4 4 1 = 2 ∧
    (∑ k in Finset.range (CountTextureMips 4 4 1), levelTexels 4 4 1 (k + 1)) = 5 ∧
    CountTexturePixels 4 4 1 0 = 20 ∧
    CountTexturePixels 4 4 1 0 ≠
      (∑ k in Finset.range (CountTextureMips 4 4 1), levelTexels 4 4 1 (k + 1)) % UINT_SIZE := by
  decide

/-- C3, amended. For 32-bit extents CountTexturePixels(width,height,depth,0) is, modulo
2^32, the sum of the texel counts of the levels 0 .. CountTextureMips - 1: the top
level (width*height*depth texels, each extent floored to 1) is the first term whenever
the mip count is not 0, and the last level, number CountTextureMips, is not a term. -/
theorem CountTexturePixels_from_top (w h d : Nat) (hw : w < 2 ^ 32) (hh : h < 2 ^ 32)
    (hd : d < 2 ^ 32) :
    CountTexturePixels w h d 0 =
      (∑ k in Finset.range (CountTextureMips w h d), levelTexels w h d k) % UINT_SIZE ∧
    (0 < CountTextureMips w h d →
      CountTexturePixels w h d 0 =
        (max 1 w * max 1 h * max 1 d +
          ∑ k in Finset.range (CountTextureMips w h d - 1), levelTexels w h d (k + 1))
          % UINT_SIZE) := by
  have h1 := CountTexturePixels_eq w h d 0 hw hh hd
  refine ⟨h1, ?_⟩
  intro hpos
  rw [h1]
  obtain ⟨m, hm⟩ : ∃ m, CountTextureMips w h d = m + 1 := ⟨CountTextureMips w h d - 1, by omega⟩
  rw [hm, Finset.sum_range_succ']
  simp only [levelTexels, levelDim_zero, Nat.add_sub_cancel]
  rw [Nat.add_comm]

/-- Witness of C3 amended at the 4 x 4 x 1 texture (16 + 4 = 20). -/
theorem CountTexturePixels_from_top_witness :
    CountTexturePixels 4 4 1 0 =
      (∑ k in Finset.range (CountTextureMips 4 4 1), levelTexels 4 4 1 k) % UINT_SIZE ∧
    (0 < CountTextureMips 4 4 1 →
      CountTexturePixels 4 4 1 0 =
        (max 1 4 * max 1 4 * max 1 1 +
          ∑ k in Finset.range (CountTextureMips 4 4 1 - 1), levelTexels 4 4 1 (k + 1))
          % UINT_SIZE) :=
  CountTexturePixels_from_top 4 4 1 (by decide) (by decide) (by decide)


/-! ## Loops -/

/-- Invariant rule for the for loop. -/
theorem forUpTo_induction {σ : Type} (P : Nat → σ → Prop) (n : Nat) (body : Nat → σ → σ)
    (s : σ) (h0 : P 0 s) (hstep : ∀ i t, i < n → P i t → P (i + 1) (body i t)) :
    P n (forUpTo n body s) := by
  induction n with
  | zero => exact h0
  | succ m ih =>
    exact hstep m _ (Nat.lt_succ_self m)
      (ih (fun i t hi hP => hstep i t (Nat.lt_succ_of_lt hi) hP))

/-- Relational rule for the for loop: a relation kept by the body is kept by the loop. -/
theorem forUpTo_rel {σ τ : Type} (R : σ → τ → Prop) (n : Nat) (f : Nat → σ → σ)
    (g : Nat → τ → τ) (s : σ) (t : τ) (h0 : R s t)
    (hstep : ∀ i a b, i < n → R a b → R (f i a) (g i b)) :
    R (forUpTo n f s) (forUpTo n g t) := by
  induction n with
  | zero => exact h0
  | succ m ih =>
    exact hstep m _ _ (Nat.lt_succ_self m)
      (ih (fun i a b hi hR => hstep i a b (Nat.lt_succ_of_lt hi) hR))

/-! ## Sub-level generation: pointers, written offsets, frame -/

theorem Advanced_refl (s : MipState) : Advanced s s 0 := by
  refine ⟨rfl, ?_, fun _ _ => rfl⟩
  simp

theorem Advanced_trans {s t u : MipState} {k j : Nat} (h1 : Advanced s t k)
    (h2 : Advanced t u j) : Advanced s u (k + j) := by
  obtain ⟨hp1, hw1, hm1⟩ := h1
  obtain ⟨hp2, hw2, hm2⟩ := h2
  refine ⟨by omega, ?_, ?_⟩
  · rw [hw2, hw1, hp1, List.append_assoc, List.range'_append_1, Nat.add_comm j k]
  · intro q hq
    rw [hm2 q (by omega), hm1 q (by omega)]

theorem chanStep_advanced (pL0 pL1 x c : Nat) (s : MipState) :
    Advanced s (chanStep pL0 pL1 x c s) 1 := by
  refine ⟨rfl, ?_, ?_⟩
  · simp [chanStep, List.range']
  · intro q hq
    have hne : q ≠ s.pCurrentMip := by omega
    simp [chanStep, store, hne]

theorem chanStep_pTopMip (pL0 pL1 x c : Nat) (s : MipState) :
    (chanStep pL0 pL1 x c s).pTopMip = s.pTopMip := rfl

theorem mipRow_eq (cw : Nat) (s : MipState) :
    mipRow cw s =
      { rowTexels s.pTopMip (s.pTopMip + (8 * cw) % UINT_SIZE) cw s with
        pTopMip := (rowTexels s.pTopMip (s.pTopMip + (8 * cw) % UINT_SIZE) cw s).pTopMip
          + (16 * cw) % UINT_SIZE } := rfl

theorem rowTexels_advanced (pL0 pL1 cw : Nat) (s : MipState) :
    Advanced s (rowTexels pL0 pL1 cw s) (4 * cw) ∧
    (rowTexels pL0 pL1 cw s).pTopMip = s.pTopMip := by
  unfold rowTexels
  refine forUpTo_induction (fun i t => Advanced s t (4 * i) ∧ t.pTopMip = s.pTopMip) cw _ s
    ⟨Advanced_refl s, rfl⟩ ?_
  intro x t _ ht
  have hin := forUpTo_induction (fun j u => Advanced t u j ∧ u.pTopMip = t.pTopMip) 4
    (fun c u => chanStep pL0 pL1 x c u) t ⟨Advanced_refl t, rfl⟩
    (fun c u _ hu => ⟨Advanced_trans hu.1 (chanStep_advanced pL0 pL1 x c u),
      (chanStep_pTopMip pL0 pL1 x c u).trans hu.2⟩)
  have h4 : 4 * (x + 1) = 4 * x + 4 := by omega
  rw [h4]
  exact ⟨Advanced_trans ht.1 hin.1, hin.2.trans ht.2⟩

theorem mipRow_advanced (cw : Nat) (s : MipState) :
    Advanced s (mipRow cw s) (4 * cw) ∧
    (mipRow cw s).pTopMip = s.pTopMip + (16 * cw) % UINT_SIZE := by
  have h := rowTexels_advanced s.pTopMip (s.pTopMip + (8 * cw) % UINT_SIZE) cw s
  rw [mipRow_eq]
  refine ⟨⟨h.1.1, h.1.2.1, h.1.2.2⟩, ?_⟩
  show _ + _ = _
  rw [h.2]

theorem mipLevel_advanced (cw ch : Nat) (s : MipState) :
    Advanced s (mipLevel cw ch s) (4 * (cw * ch)) ∧
    (mipLevel cw ch s).pTopMip = s.pTopMip + ch * ((16 * cw) % UINT_SIZE) := by
  unfold mipLevel
  refine forUpTo_induction (fun i t => Advanced s t (4 * (cw * i)) ∧
    t.pTopMip = s.pTopMip + i * ((16 * cw) % UINT_SIZE)) ch _ s ⟨Advanced_refl s, by simp⟩ ?_
  intro y t _ ht
  have hr := mipRow_advanced cw t
  have h4 : 4 * (cw * (y + 1)) = 4 * (cw * y) + 4 * cw := by ring
  rw [h4]
  refine ⟨Advanced_trans ht.1 hr.1, ?_⟩
  rw [hr.2, ht.2]
  ring

theorem mipLevels_advanced (k : Nat) : ∀ (tw th : Nat) (s : MipState),
    Advanced s (mipLevels k tw th s) (4 * chainTexels k tw th) := by
  induction k with
  | zero => intro tw th s; exact Advanced_refl s
  | succ k ih =>
    intro tw th s
    have h1 := (mipLevel_advanced (MAX 1 (tw >>> 1)) (MAX 1 (th >>> 1)) s).1
    have h2 := ih (MAX 1 (tw >>> 1)) (MAX 1 (th >>> 1))
      (mipLevel (MAX 1 (tw >>> 1)) (MAX 1 (th >>> 1)) s)
    have h4 : 4 * chainTexels (k + 1) tw th =
        4 * (MAX 1 (tw >>> 1) * MAX 1 (th >>> 1)) +
          4 * chainTexels k (MAX 1 (tw >>> 1)) (MAX 1 (th >>> 1)) := by
      simp only [chainTexels]; ring
    rw [h4]
    exact Advanced_trans h1 h2

theorem MAX_one_halve (n : Nat) : MAX 1 (n >>> 1) = max (n / 2) 1 := by
  rw [MAX_eq_max, Nat.shiftRight_eq_div_pow, pow_one, Nat.max_comm]

/-- The k generated levels are the levels 1 .. k of the chain of the top extents. -/
theorem chainTexels_eq_sum (k : Nat) : ∀ (w h : Nat),
    chainTexels k w h = ∑ m in Finset.range k, levelDim w (m + 1) * levelDim h (m + 1) := by
  induction k with
  | zero => intro w h; rfl
  | succ k ih =>
    intro w h
    rw [chainTexels, ih, Finset.sum_range_succ', MAX_one_halve, MAX_one_halve]
    simp only [levelDim_halve]
    have e : ∀ n, max (n / 2) 1 = levelDim n (0 + 1) := by
      intro n; rw [levelDim_eq]; simp [Nat.max_comm]
    rw [e w, e h, Nat.add_comm]


/-! ## Top-level expansion of GenerateMips_RGB_To_RGBA -/

theorem Expanded_refl (pIn : Mem) (s : ExpandState) : Expanded pIn s s 0 := by
  refine ⟨rfl, rfl, by simp, ?_⟩
  intro q
  rw [if_neg (by omega)]

theorem expandPixel_expanded (pIn : Mem) (s t : ExpandState) (k : Nat)
    (h : Expanded pIn s t k) : Expanded pIn s (expandPixel pIn t) (k + 1) := by
  obtain ⟨hp, hi, hw, hm⟩ := h
  refine ⟨?_, ?_, ?_, ?_⟩
  · show t.pCurrentMip + 4 = _
    omega
  · show t.pInBytes + 3 = _
    omega
  · show t.writes ++ _ = _
    rw [hw, hp, List.append_assoc]
    congr 1
    have e : 4 * (k + 1) = 4 * k + 1 + 1 + 1 + 1 := by omega
    rw [e, List.range'_1_concat, List.range'_1_concat, List.range'_1_concat,
      List.range'_1_concat]
    simp [Nat.add_assoc]
  · intro q
    show (if q = t.pCurrentMip + 3 then (255 : Byte) else
      if q = t.pCurrentMip + 2 then pIn (t.pInBytes + 2) else
      if q = t.pCurrentMip + 1 then pIn (t.pInBytes + 1) else
      if q = t.pCurrentMip then pIn t.pInBytes else t.mem q) = _
    rw [hp, hi]
    by_cases h3 : q = s.pCurrentMip + 4 * k + 3
    · rw [if_pos h3, if_pos (by omega), if_pos (by omega)]
    rw [if_neg h3]
    by_cases h2 : q = s.pCurrentMip + 4 * k + 2
    · rw [if_pos h2, if_pos (by omega), if_neg (by omega)]
      exact congrArg pIn (by omega)
    rw [if_neg h2]
    by_cases h1 : q = s.pCurrentMip + 4 * k + 1
    · rw [if_pos h1, if_pos (by omega), if_neg (by omega)]
      exact congrArg pIn (by omega)
    rw [if_neg h1]
    by_cases h0 : q = s.pCurrentMip + 4 * k
    · rw [if_pos h0, if_pos (by omega), if_neg (by omega)]
      exact congrArg pIn (by omega)
    rw [if_neg h0, hm q]
    by_cases hr : s.pCurrentMip ≤ q ∧ q < s.pCurrentMip + 4 * k
    · have hr2 : s.pCurrentMip ≤ q ∧ q < s.pCurrentMip + 4 * (k + 1) := by omega
      rw [if_pos hr, if_pos hr2]
    · have hr2 : ¬ (s.pCurrentMip ≤ q ∧ q < s.pCurrentMip + 4 * (k + 1)) := by omega
      rw [if_neg hr, if_neg hr2]

theorem expandTop_expanded (pIn : Mem) (w h : Nat) (s : ExpandState) :
    Expanded pIn s (expandTop pIn w h s) (w * h) := by
  unfold expandTop
  have hrow : ∀ (k : Nat) (t : ExpandState), Expanded pIn s t k →
      Expanded pIn s (forUpTo w (fun _x u => expandPixel pIn u) t) (k + w) := by
    intro k t ht
    exact forUpTo_induction (fun i u => Expanded pIn s u (k + i)) w _ t ht
      (fun i u _ hu => expandPixel_expanded pIn s u (k + i) hu)
  refine forUpTo_induction (fun y t => Expanded pIn s t (w * y)) h _ s
    (Expanded_refl pIn s) ?_
  intro y t _ ht
  have := hrow (w * y) t ht
  rw [Nat.mul_succ]
  exact this

/-- The expansion loops turn the output buffer into the expanded image of the input:
the first 4*w*h bytes are written once each, in increasing order. -/
theorem expandTop_result (pOut pIn : Mem) (w h : Nat) :
    (expandTop pIn w h { mem := pOut, pCurrentMip := 0, pInBytes := 0, writes := [] }).mem
      = expandedTop pOut pIn w h ∧
    (expandTop pIn w h
      { mem := pOut, pCurrentMip := 0, pInBytes := 0, writes := [] }).pCurrentMip
      = 4 * (w * h) ∧
    (expandTop pIn w h { mem := pOut, pCurrentMip := 0, pInBytes := 0, writes := [] }).writes
      = List.range' 0 (4 * (w * h)) := by
  obtain ⟨hp, _, hw, hm⟩ := expandTop_expanded pIn w h
    { mem := pOut, pCurrentMip := 0, pInBytes := 0, writes := [] }
  refine ⟨?_, by simpa using hp, by simpa using hw⟩
  funext q
  rw [hm q]
  simp [expandedTop]

theorem GenerateMips_RGB_To_RGBA_eq (pOut pIn : Mem) (w h n : Nat) :
    GenerateMips_RGB_To_RGBA pOut pIn w h n =
      mipLevels (effectiveMips w h n - 1) w h
        { mem := expandedTop pOut pIn w h
          pCurrentMip := 4 * (w * h)
          pTopMip := 0
          reads := []
          writes := List.range' 0 (4 * (w * h)) } := by
  obtain ⟨h1, h2, h3⟩ := expandTop_result pOut pIn w h
  unfold GenerateMips_RGB_To_RGBA
  simp only [h1, h2, h3]

/-- C4. After GenerateMips_RGB_To_RGBA, for every mip count and every pixel index
i < w*h, bytes 4i, 4i+1, 4i+2 of the output are bytes 3i, 3i+1, 3i+2 of the input and
byte 4i+3 is 255: the expanded top level is exact and the sub-level generation, which
writes from offset 4*w*h on, does not overwrite it. -/
theorem GenerateMips_RGB_To_RGBA_top_level (pOut pIn : Mem) (w h n i : Nat)
    (hi : i < w * h) :
    (GenerateMips_RGB_To_RGBA pOut pIn w h n).mem (4 * i) = pIn (3 * i) ∧
    (GenerateMips_RGB_To_RGBA pOut pIn w h n).mem (4 * i + 1) = pIn (3 * i + 1) ∧
    (GenerateMips_RGB_To_RGBA pOut pIn w h n).mem (4 * i + 2) = pIn (3 * i + 2) ∧
    (GenerateMips_RGB_To_RGBA pOut pIn w h n).mem (4 * i + 3) = 255 := by
  rw [GenerateMips_RGB_To_RGBA_eq]
  obtain ⟨_, _, hm⟩ := mipLevels_advanced (effectiveMips w h n - 1) w h
    { mem := expandedTop pOut pIn w h
      pCurrentMip := 4 * (w * h)
      pTopMip := 0
      reads := []
      writes := List.range' 0 (4 * (w * h)) }
  have hlt : ∀ j, j < 4 → 4 * i + j < 4 * (w * h) := by intro j hj; omega
  have e0 := hm (4 * i) (Or.inl (by simpa using hlt 0 (by decide)))
  have e1 := hm (4 * i + 1) (Or.inl (hlt 1 (by decide)))
  have e2 := hm (4 * i + 2) (Or.inl (hlt 2 (by decide)))
  have e3 := hm (4 * i + 3) (Or.inl (hlt 3 (by decide)))
  rw [e0, e1, e2, e3]
  simp only [expandedTop]
  refine ⟨?_, ?_, ?_, ?_⟩
  · rw [if_pos (by omega), if_neg (by omega)]; exact congrArg pIn (by omega)
  · rw [if_pos (by omega), if_neg (by omega)]; exact congrArg pIn (by omega)
  · rw [if_pos (by omega), if_neg (by omega)]; exact congrArg pIn (by omega)
  · rw [if_pos (by omega), if_pos (by omega)]

/-- Witness of C4: pixel 3 of a 2 x 2 image, mip count 2. -/
theorem GenerateMips_RGB_To_RGBA_top_level_witness :
    (GenerateMips_RGB_To_RGBA (fun _ => 0) (fun q => toByte q) 2 2 2).mem (4 * 3)
      = (fun q => toByte q) (3 * 3) ∧
    (GenerateMips_RGB_To_RGBA (fun _ => 0) (fun q => toByte q) 2 2 2).mem (4 * 3 + 1)
      = (fun q => toByte q) (3 * 3 + 1) ∧
    (GenerateMips_RGB_To_RGBA (fun _ => 0) (fun q => toByte q) 2 2 2).mem (4 * 3 + 2)
      = (fun q => toByte q) (3 * 3 + 2) ∧
    (GenerateMips_RGB_To_RGBA (fun _ => 0) (fun q => toByte q) 2 2 2).mem (4 * 3 + 3) = 255 :=
  GenerateMips_RGB_To_RGBA_top_level (fun _ => 0) (fun q => toByte q) 2 2 2 3 (by decide)


/-! ## The two generators -/

theorem chanStep_sameCore (pL0 pL1 x c : Nat) (s t : MipState) (h : SameCore s t) :
    SameCore (chanStep pL0 pL1 x c s) (chanStep pL0 pL1 x c t) := by
  obtain ⟨hm, hp, ht⟩ := h
  refine ⟨?_, ?_, ht⟩
  · show store s.mem s.pCurrentMip _ = store t.mem t.pCurrentMip _
    rw [hm, hp]
  · show s.pCurrentMip + 1 = t.pCurrentMip + 1
    rw [hp]

theorem rowTexels_sameCore (pL0 pL1 cw : Nat) (s t : MipState) (h : SameCore s t) :
    SameCore (rowTexels pL0 pL1 cw s) (rowTexels pL0 pL1 cw t) := by
  unfold rowTexels
  refine forUpTo_rel SameCore cw _ _ s t h ?_
  intro x a b _ hab
  exact forUpTo_rel SameCore 4 _ _ a b hab
    (fun c u v _ huv => chanStep_sameCore pL0 pL1 x c u v huv)

theorem mipRow_sameCore (cw : Nat) (s t : MipState) (h : SameCore s t) :
    SameCore (mipRow cw s) (mipRow cw t) := by
  have hr := rowTexels_sameCore s.pTopMip (s.pTopMip + (8 * cw) % UINT_SIZE) cw s t h
  rw [mipRow_eq, mipRow_eq, ← h.2.2]
  refine ⟨hr.1, hr.2.1, ?_⟩
  show _ + _ = _ + _
  rw [hr.2.2]

theorem mipLevel_sameCore (cw ch : Nat) (s t : MipState) (h : SameCore s t) :
    SameCore (mipLevel cw ch s) (mipLevel cw ch t) := by
  unfold mipLevel
  exact forUpTo_rel SameCore ch _ _ s t h (fun _ a b _ hab => mipRow_sameCore cw a b hab)

theorem mipLevels_sameCore (k : Nat) : ∀ (tw th : Nat) (s t : MipState), SameCore s t →
    SameCore (mipLevels k tw th s) (mipLevels k tw th t) := by
  induction k with
  | zero => intro tw th s t h; exact h
  | succ k ih =>
    intro tw th s t h
    exact ih _ _ _ _ (mipLevel_sameCore _ _ s t h)

/-- C8. The two generators agree: when 4*w*h does not wrap, for every mip count, input
image and initial output buffer, the final buffer of GenerateMips_RGB_To_RGBA is the final
buffer of GenerateMips_RGBA_InPlace run on the output buffer whose first 4*w*h bytes
were replaced by the input expanded to (R,G,B,255) per pixel; the two write pointers
end at the same offset. -/
theorem generators_agree (pOut pIn : Mem) (w h n : Nat) (hov : 4 * w * h < 2 ^ 32) :
    (GenerateMips_RGB_To_RGBA pOut pIn w h n).mem =
      (GenerateMips_RGBA_InPlace (expandedTop pOut pIn w h) w h n).mem ∧
    (GenerateMips_RGB_To_RGBA pOut pIn w h n).pCurrentMip =
      (GenerateMips_RGBA_InPlace (expandedTop pOut pIn w h) w h n).pCurrentMip := by
  rw [GenerateMips_RGB_To_RGBA_eq]
  unfold GenerateMips_RGBA_InPlace
  have hs := mipLevels_sameCore (effectiveMips w h n - 1) w h
    { mem := expandedTop pOut pIn w h
      pCurrentMip := 4 * (w * h)
      pTopMip := 0
      reads := []
      writes := List.range' 0 (4 * (w * h)) }
    { mem := expandedTop pOut pIn w h
      pCurrentMip := (4 * w * h) % UINT_SIZE
      pTopMip := 0
      reads := []
      writes := [] }
    ⟨rfl, by show 4 * (w * h) = (4 * w * h) % UINT_SIZE
             rw [Nat.mod_eq_of_lt hov, Nat.mul_assoc], rfl⟩
  exact ⟨hs.1, hs.2.1⟩

/-- Witness of C8 at a 2 x 2 image with the default mip count. -/
theorem generators_agree_witness :
    (GenerateMips_RGB_To_RGBA (fun _ => 9) (fun q => toByte q) 2 2 0).mem =
      (GenerateMips_RGBA_InPlace (expandedTop (fun _ => 9) (fun q => toByte q) 2 2) 2 2 0).mem ∧
    (GenerateMips_RGB_To_RGBA (fun _ => 9) (fun q => toByte q) 2 2 0).pCurrentMip =
      (GenerateMips_RGBA_InPlace
        (expandedTop (fun _ => 9) (fun q => toByte q) 2 2) 2 2 0).pCurrentMip :=
  generators_agree (fun _ => 9) (fun q => toByte q) 2 2 0 (by decide)

/-- C7, refuted as stated. For a 4 x 4 image and the default mip count (2), both
generators write 16 bytes after the top level, the 2 x 2 level at offsets 64 .. 79, and
not the 4 * (4 + 1) = 20 bytes of levels 1 and 2: offset 80, where the 1 x 1 level would
be, is never written. -/
theorem generators_do_not_write_n_levels :
    effectiveMips 4 4 0 = 2 ∧
    4 * (∑ m in Finset.range (effectiveMips 4 4 0), levelDim 4 (m + 1) * levelDim 4 (m + 1))
      = 20 ∧
    (GenerateMips_RGBA_InPlace (fun _ => 0) 4 4 0).writes = List.range' 64 16 ∧
    (GenerateMips_RGB_To_RGBA (fun _ => 0) (fun _ => 0) 4 4 0).writes = List.range' 0 (64 + 16) ∧
    (GenerateMips_RGBA_InPlace (fun _ => 0) 4 4 0).writes.length ≠
      4 * (∑ m in Finset.range (effectiveMips 4 4 0), levelDim 4 (m + 1) * levelDim 4 (m + 1)) ∧
    (GenerateMips_RGB_To_RGBA (fun _ => 0) (fun _ => 0) 4 4 0).writes.length ≠
      4 * (4 * 4) +
      4 * (∑ m in Finset.range (effectiveMips 4 4 0), levelDim 4 (m + 1) * levelDim 4 (m + 1)) ∧
    80 ∉ (GenerateMips_RGBA_InPlace (fun _ => 0) 4 4 0).writes ∧
    80 ∉ (GenerateMips_RGB_To_RGBA (fun _ => 0) (fun _ => 0) 4 4 0).writes := by
  decide

/-- C7, amended. With n the mip count in force (nMipsToGenerate, or
CountTextureMips(w,h,1) when that is 0), both generators produce the n-1 levels
1 .. n-1 (none when n <= 1): the sub-level loop writes
4 * sum over m = 1 .. n-1 of max(1,w>>m)*max(1,h>>m) bytes, once each and in increasing
order, from the offset where the write pointer stands after the top level (4*w*h for
GenerateMips_RGB_To_RGBA, 4*w*h modulo 2^32 for GenerateMips_RGBA_InPlace). With the
default count the chain stops one level short: for a 4 x 4 image only the 2 x 2 level
is written. -/
theorem generators_write_n_minus_one_levels (pInOut pOut pIn : Mem) (w h n : Nat) :
    (GenerateMips_RGBA_InPlace pInOut w h n).writes =
      List.range' ((4 * w * h) % UINT_SIZE)
        (4 * ∑ m in Finset.range (effectiveMips w h n - 1),
          max 1 (w >>> (m + 1)) * max 1 (h >>> (m + 1))) ∧
    (GenerateMips_RGB_To_RGBA pOut pIn w h n).writes =
      List.range' 0 (4 * (w * h)) ++
      List.range' (4 * (w * h))
        (4 * ∑ m in Finset.range (effectiveMips w h n - 1),
          max 1 (w >>> (m + 1)) * max 1 (h >>> (m + 1))) ∧
    (GenerateMips_RGBA_InPlace pInOut 4 4 0).writes = List.range' (4 * 4 * 4) (4 * (2 * 2)) ∧
    (GenerateMips_RGB_To_RGBA pOut pIn 4 4 0).writes =
      List.range' 0 (4 * (4 * 4)) ++ List.range' (4 * (4 * 4)) (4 * (2 * 2)) := by
  have hI : ∀ (m : Mem) (w h n : Nat), (GenerateMips_RGBA_InPlace m w h n).writes =
      List.range' ((4 * w * h) % UINT_SIZE)
        (4 * ∑ m in Finset.range (effectiveMips w h n - 1),
          max 1 (w >>> (m + 1)) * max 1 (h >>> (m + 1))) := by
    intro m w h n
    unfold GenerateMips_RGBA_InPlace
    have ha := (mipLevels_advanced (effectiveMips w h n - 1) w h
      { mem := m
        pCurrentMip := (4 * w * h) % UINT_SIZE
        pTopMip := 0
        reads := []
        writes := [] }).2.1
    rw [chainTexels_eq_sum] at ha
    simpa [levelDim] using ha
  have hR : ∀ (o i : Mem) (w h n : Nat), (GenerateMips_RGB_To_RGBA o i w h n).writes =
      List.range' 0 (4 * (w * h)) ++
      List.range' (4 * (w * h))
        (4 * ∑ m in Finset.range (effectiveMips w h n - 1),
          max 1 (w >>> (m + 1)) * max 1 (h >>> (m + 1))) := by
    intro o i w h n
    rw [GenerateMips_RGB_To_RGBA_eq]
    have ha := (mipLevels_advanced (effectiveMips w h n - 1) w h
      { mem := expandedTop o i w h
        pCurrentMip := 4 * (w * h)
        pTopMip := 0
        reads := []
        writes := List.range' 0 (4 * (w * h)) }).2.1
    rw [chainTexels_eq_sum] at ha
    simpa only [levelDim] using ha
  refine ⟨hI pInOut w h n, hR pOut pIn w h n, ?_, ?_⟩
  · rw [hI]; decide
  · rw [hR]; decide


/-! ## Box filter: what one level holds -/

theorem boxSum_congr (m1 m2 : Mem) (pL0 pL1 x c b : Nat) (hagree : ∀ q, q < b → m1 q = m2 q)
    (h0 : pL0 + (8 * x + c + 4) < b) (h1 : pL1 + (8 * x + c + 4) < b) :
    boxSum m1 pL0 pL1 x c = boxSum m2 pL0 pL1 x c := by
  have ha := Nat.mod_le (8 * x + c) UINT_SIZE
  have hb := Nat.mod_le (8 * x + c + 4) UINT_SIZE
  unfold boxSum
  rw [hagree _ (by omega), hagree _ (by omega), hagree _ (by omega), hagree _ (by omega)]

theorem chanStep_rowFilled (s t : MipState) (pL0 pL1 x c : Nat) (hc : c < 4)
    (h0 : pL0 + (8 * x + c + 4) < s.pCurrentMip) (h1 : pL1 + (8 * x + c + 4) < s.pCurrentMip)
    (h : RowFilled s t pL0 pL1 (4 * x + c)) :
    RowFilled s (chanStep pL0 pL1 x c t) pL0 pL1 (4 * x + c + 1) := by
  obtain ⟨hadv, htop, hcont⟩ := h
  refine ⟨Advanced_trans hadv (chanStep_advanced pL0 pL1 x c t), htop, ?_⟩
  intro j hj
  show store t.mem t.pCurrentMip _ (s.pCurrentMip + j) = _
  unfold store
  rw [hadv.1]
  by_cases hjk : j = 4 * x + c
  · rw [if_pos (by omega)]
    have hx : j / 4 = x := by omega
    have hcc : j % 4 = c := by omega
    rw [hx, hcc, boxSum_congr t.mem s.mem pL0 pL1 x c s.pCurrentMip
      (fun q hq => hadv.2.2 q (Or.inl hq)) h0 h1]
  · rw [if_neg (by omega)]
    exact hcont j (by omega)

theorem rowTexels_rowFilled (s : MipState) (pL0 pL1 cw : Nat)
    (h0 : pL0 + 8 * cw ≤ s.pCurrentMip) (h1 : pL1 + 8 * cw ≤ s.pCurrentMip) :
    RowFilled s (rowTexels pL0 pL1 cw s) pL0 pL1 (4 * cw) := by
  unfold rowTexels
  refine forUpTo_induction (fun i t => RowFilled s t pL0 pL1 (4 * i)) cw _ s
    ⟨Advanced_refl s, rfl, fun j hj => absurd hj (by omega)⟩ ?_
  intro x t hx ht
  have h4 : 4 * (x + 1) = 4 * x + 4 := by omega
  rw [h4]
  exact forUpTo_induction (fun j u => RowFilled s u pL0 pL1 (4 * x + j)) 4
    (fun c u => chanStep pL0 pL1 x c u) t ht
    (fun c u hc hu => chanStep_rowFilled s u pL0 pL1 x c hc (by omega) (by omega) hu)

theorem mipRow_levelFilled (s t : MipState) (cw ch y : Nat) (hy : y < ch)
    (hcw : 16 * cw < UINT_SIZE) (hfit : s.pTopMip + 16 * cw * ch ≤ s.pCurrentMip)
    (h : LevelFilled s t cw y) : LevelFilled s (mipRow cw t) cw (y + 1) := by
  obtain ⟨hadv, htop, hcont⟩ := h
  have e8 : (8 * cw) % UINT_SIZE = 8 * cw := Nat.mod_eq_of_lt (by omega)
  have e16 : (16 * cw) % UINT_SIZE = 16 * cw := Nat.mod_eq_of_lt (by omega)
  have hy1 : 16 * cw * (y + 1) ≤ 16 * cw * ch := Nat.mul_le_mul_left _ hy
  have hy2 : 16 * cw * (y + 1) = 16 * cw * y + 16 * cw := by ring
  have hrow := rowTexels_rowFilled t t.pTopMip (t.pTopMip + 8 * cw) cw
    (by rw [htop, hadv.1]; omega) (by rw [htop, hadv.1]; omega)
  obtain ⟨radv, rtop, rcont⟩ := hrow
  have hadv2 : Advanced s (rowTexels t.pTopMip (t.pTopMip + 8 * cw) cw t)
      (4 * (cw * (y + 1))) := by
    have e : 4 * (cw * (y + 1)) = 4 * (cw * y) + 4 * cw := by ring
    rw [e]
    exact Advanced_trans hadv radv
  rw [mipRow_eq, e8, e16]
  refine ⟨⟨hadv2.1, hadv2.2.1, hadv2.2.2⟩, ?_, ?_⟩
  · show _ + _ = _
    rw [rtop, htop]
    ring
  · intro r x c hr hx hc
    show (rowTexels t.pTopMip (t.pTopMip + 8 * cw) cw t).mem _ = _
    by_cases hry : r < y
    · have hle : (r + 1) * cw ≤ y * cw := Nat.mul_le_mul_right _ hry
      have e1 : (r + 1) * cw = r * cw + cw := by ring
      have e2 : cw * y = y * cw := Nat.mul_comm _ _
      rw [radv.2.2 _ (Or.inl (by rw [hadv.1]; omega))]
      exact hcont r x c hry hx hc
    · have hreq : r = y := by omega
      subst hreq
      have e2 : cw * r = r * cw := Nat.mul_comm _ _
      have haddr : s.pCurrentMip + 4 * (r * cw + x) + c = t.pCurrentMip + (4 * x + c) := by
        rw [hadv.1]; omega
      have hx4 : (4 * x + c) / 4 = x := by omega
      have hc4 : (4 * x + c) % 4 = c := by omega
      rw [haddr, rcont (4 * x + c) (by omega), hx4, hc4, htop]
      rw [boxSum_congr t.mem s.mem _ _ x c s.pCurrentMip
        (fun q hq => hadv.2.2 q (Or.inl hq)) (by omega) (by omega)]

/-- One level: when the index arithmetic does not wrap and the rows read lie below the
write pointer, texel (x, r) of the generated level is the box average of the bytes the
code addresses, taken from the buffer as it was before the level. -/
theorem mipLevel_levelFilled (s : MipState) (cw ch : Nat) (hcw : 16 * cw < UINT_SIZE)
    (hfit : s.pTopMip + 16 * cw * ch ≤ s.pCurrentMip) :
    LevelFilled s (mipLevel cw ch s) cw ch := by
  unfold mipLevel
  refine forUpTo_induction (fun y t => LevelFilled s t cw y) ch _ s
    ⟨Advanced_refl s, by simp, fun r x c hr => absurd hr (by omega)⟩ ?_
  intro y t hy ht
  exact mipRow_levelFilled s t cw ch y hy hcw hfit ht


theorem mipLevels_succ (k tw th : Nat) (s : MipState) :
    mipLevels (k + 1) tw th s =
      mipLevels k (MAX 1 (tw >>> 1)) (MAX 1 (th >>> 1))
        (mipLevel (MAX 1 (tw >>> 1)) (MAX 1 (th >>> 1)) s) := rfl

theorem half_mul_half_le (w h : Nat) : 4 * ((w / 2) * (h / 2)) ≤ w * h := by
  have h1 : 2 * (w / 2) ≤ w := Nat.mul_div_le w 2
  have h2 : 2 * (h / 2) ≤ h := Nat.mul_div_le h 2
  calc 4 * ((w / 2) * (h / 2)) = (2 * (w / 2)) * (2 * (h / 2)) := by ring
    _ ≤ w * h := Nat.mul_le_mul h1 h2

/-- Level 1 of GenerateMips_RGBA_InPlace for w, h >= 2 when 4*w*h does not wrap and at
least one level is generated: texel (x, y) is the box average of the bytes the code
addresses with a row stride of 2 * (w/2) texels, and the top level is unchanged. -/
theorem InPlace_level_one (pInOut : Mem) (w h n x y c : Nat) (hw : 2 ≤ w) (hh : 2 ≤ h)
    (hov : 4 * w * h < 2 ^ 32) (hn : 2 ≤ effectiveMips w h n)
    (hx : x < w / 2) (hy : y < h / 2) (hc : c < 4) :
    (GenerateMips_RGBA_InPlace pInOut w h n).mem (4 * w * h + 4 * (y * (w / 2) + x) + c) =
      toByte (boxSum pInOut (16 * (w / 2) * y) (16 * (w / 2) * y + 8 * (w / 2)) x c >>> 2) ∧
    ∀ q, q < 4 * w * h → (GenerateMips_RGBA_InPlace pInOut w h n).mem q = pInOut q := by
  have hcw : MAX 1 (w >>> 1) = w / 2 := by rw [MAX_one_halve]; omega
  have hch : MAX 1 (h >>> 1) = h / 2 := by rw [MAX_one_halve]; omega
  have hP : (4 * w * h) % UINT_SIZE = 4 * w * h := Nat.mod_eq_of_lt hov
  have hwh := half_mul_half_le w h
  have hassoc : 4 * w * h = 4 * (w * h) := Nat.mul_assoc 4 w h
  have h2w : 2 * w ≤ w * h := by rw [Nat.mul_comm w h]; exact Nat.mul_le_mul_right w hh
  have h2cw : 2 * (w / 2) ≤ w := Nat.mul_div_le w 2
  have hlt : (y + 1) * (w / 2) ≤ (h / 2) * (w / 2) := Nat.mul_le_mul_right _ hy
  have e1 : (y + 1) * (w / 2) = y * (w / 2) + w / 2 := by ring
  have e2 : (h / 2) * (w / 2) = (w / 2) * (h / 2) := Nat.mul_comm _ _
  obtain ⟨k, hk⟩ : ∃ k, effectiveMips w h n - 1 = k + 1 :=
    ⟨effectiveMips w h n - 2, by omega⟩
  unfold GenerateMips_RGBA_InPlace
  simp only [hk, mipLevels_succ, hcw, hch, hP]
  have hlev := mipLevel_levelFilled
    { mem := pInOut, pCurrentMip := 4 * w * h, pTopMip := 0, reads := [], writes := [] }
    (w / 2) (h / 2) (by simp only [UINT_SIZE]; omega)
    (by show 0 + 16 * (w / 2) * (h / 2) ≤ 4 * w * h
        rw [Nat.mul_assoc 16]; omega)
  obtain ⟨ladv, _, lcont⟩ := hlev
  have hrest := mipLevels_advanced k (w / 2) (h / 2) (mipLevel (w / 2) (h / 2)
    { mem := pInOut, pCurrentMip := 4 * w * h, pTopMip := 0, reads := [], writes := [] })
  have hp1 := ladv.1
  simp only at hp1
  constructor
  · rw [hrest.2.2 _ (Or.inl (by rw [hp1]; omega))]
    have := lcont y x c hy hx hc
    simpa using this
  · intro q hq
    rw [hrest.2.2 _ (Or.inl (by rw [hp1]; omega))]
    exact ladv.2.2 q (Or.inl hq)

theorem toByte_avg_val (a b c d : Byte) :
    (toByte (((a.val + b.val + c.val + d.val) % UINT_SIZE) >>> 2)).val =
      (a.val + b.val + c.val + d.val) / 4 := by
  have ha := a.isLt
  have hb := b.isLt
  have hc := c.isLt
  have hd := d.isLt
  have e : (a.val + b.val + c.val + d.val) % UINT_SIZE = a.val + b.val + c.val + d.val :=
    Nat.mod_eq_of_lt (by simp only [UINT_SIZE]; omega)
  rw [e]
  show ((a.val + b.val + c.val + d.val) >>> 2) % 256 = _
  rw [Nat.shiftRight_eq_div_pow]
  omega

/-- The value stored for one channel, when the index arithmetic does not wrap: the sum
of the four bytes divided by 4, rounded down. -/
theorem boxAvg_val (m : Mem) (pL0 pL1 x c : Nat) (hx : 8 * x + c + 4 < UINT_SIZE) :
    (toByte (boxSum m pL0 pL1 x c >>> 2)).val =
      ((m (pL0 + (8 * x + c))).val + (m (pL0 + (8 * x + c + 4))).val +
       (m (pL1 + (8 * x + c))).val + (m (pL1 + (8 * x + c + 4))).val) / 4 := by
  unfold boxSum
  rw [Nat.mod_eq_of_lt (show 8 * x + c < UINT_SIZE by omega), Nat.mod_eq_of_lt hx]
  exact toByte_avg_val _ _ _ _

/-- C5, refuted as stated (no bound on 4*w*h). For w = h = 65536 the uint product
4*w*h is 0, so pCurrentMip starts at offset 0 and the one level generated (mip count 2)
is written to the offsets below 2^32. For x = 0, y = 16384, c = 0 the byte at offset
4*w*h + 4*(y*(w/2) + x) + c = 2^34 + 2^31, which the claim takes for level-1 texel
(x, y), keeps its old value 255, while the four footprint bytes of the top level, which
lie at offsets from 2^33 on, are 0 before and after the call. -/
theorem box_filter_location_wraps :
    (4 * 65536 * 65536) % UINT_SIZE = 0 ∧
    ((GenerateMips_RGBA_InPlace (spike (2 ^ 34 + 2 ^ 31) 255) 65536 65536 2).mem
      (4 * 65536 * 65536 + 4 * (16384 * (65536 / 2) + 0) + 0)).val = 255 ∧
    ((spike (2 ^ 34 + 2 ^ 31) 255 (4 * ((2 * 16384) * 65536 + 2 * 0) + 0)).val +
     (spike (2 ^ 34 + 2 ^ 31) 255 (4 * ((2 * 16384) * 65536 + (2 * 0 + 1)) + 0)).val +
     (spike (2 ^ 34 + 2 ^ 31) 255 (4 * ((2 * 16384 + 1) * 65536 + 2 * 0) + 0)).val +
     (spike (2 ^ 34 + 2 ^ 31) 255 (4 * ((2 * 16384 + 1) * 65536 + (2 * 0 + 1)) + 0)).val) / 4
      = 0 ∧
    (((GenerateMips_RGBA_InPlace (spike (2 ^ 34 + 2 ^ 31) 255) 65536 65536 2).mem
        (4 * ((2 * 16384) * 65536 + 2 * 0) + 0)).val +
     ((GenerateMips_RGBA_InPlace (spike (2 ^ 34 + 2 ^ 31) 255) 65536 65536 2).mem
        (4 * ((2 * 16384) * 65536 + (2 * 0 + 1)) + 0)).val +
     ((GenerateMips_RGBA_InPlace (spike (2 ^ 34 + 2 ^ 31) 255) 65536 65536 2).mem
        (4 * ((2 * 16384 + 1) * 65536 + 2 * 0) + 0)).val +
     ((GenerateMips_RGBA_InPlace (spike (2 ^ 34 + 2 ^ 31) 255) 65536 65536 2).mem
        (4 * ((2 * 16384 + 1) * 65536 + (2 * 0 + 1)) + 0)).val) / 4 = 0 ∧
    ((GenerateMips_RGBA_InPlace (spike (2 ^ 34 + 2 ^ 31) 255) 65536 65536 2).mem
      (4 * 65536 * 65536 + 4 * (16384 * (65536 / 2) + 0) + 0)).val ≠
    ((spike (2 ^ 34 + 2 ^ 31) 255 (4 * ((2 * 16384) * 65536 + 2 * 0) + 0)).val +
     (spike (2 ^ 34 + 2 ^ 31) 255 (4 * ((2 * 16384) * 65536 + (2 * 0 + 1)) + 0)).val +
     (spike (2 ^ 34 + 2 ^ 31) 255 (4 * ((2 * 16384 + 1) * 65536 + 2 * 0) + 0)).val +
     (spike (2 ^ 34 + 2 ^ 31) 255 (4 * ((2 * 16384 + 1) * 65536 + (2 * 0 + 1)) + 0)).val) / 4
    := by
  have hframe : ∀ (m : Mem) (w h q : Nat),
      (4 * w * h) % UINT_SIZE + 4 * (MAX 1 (w >>> 1) * MAX 1 (h >>> 1)) ≤ q →
      (GenerateMips_RGBA_InPlace m w h 2).mem q = m q := by
    intro m w h q hq
    have hadv := mipLevels_advanced 1 w h
      { mem := m, pCurrentMip := (4 * w * h) % UINT_SIZE, pTopMip := 0, reads := [],
        writes := [] }
    exact hadv.2.2 q (Or.inr (by simpa [chainTexels] using hq))
  rw [hframe _ _ _ (4 * 65536 * 65536 + 4 * (16384 * (65536 / 2) + 0) + 0) (by decide),
    hframe _ _ _ (4 * ((2 * 16384) * 65536 + 2 * 0) + 0) (by decide),
    hframe _ _ _ (4 * ((2 * 16384) * 65536 + (2 * 0 + 1)) + 0) (by decide),
    hframe _ _ _ (4 * ((2 * 16384 + 1) * 65536 + 2 * 0) + 0) (by decide),
    hframe _ _ _ (4 * ((2 * 16384 + 1) * 65536 + (2 * 0 + 1)) + 0) (by decide)]
  decide

/-- C5, amended (4*w*h < 2^32 added). For even w >= 2 and even h >= 2 with
4*w*h < 2^32, a mip count in force of at least 2, and x < w/2, y < h/2, c < 4: after
GenerateMips_RGBA_InPlace the byte at offset 4*w*h + 4*(y*(w/2) + x) + c is
floor((T(2x,2y,c) + T(2x+1,2y,c) + T(2x,2y+1,c) + T(2x+1,2y+1,c)) / 4), T(i,j,c) being
the top-level byte at offset 4*(j*w + i) + c, which the call leaves unchanged. The
division truncates: footprint values 1,1,1,0 give 0. -/
theorem box_filter_even (pInOut : Mem) (w h n x y c : Nat) (hw : 2 ≤ w) (hwe : w % 2 = 0)
    (hh : 2 ≤ h) (_hhe : h % 2 = 0) (hov : 4 * w * h < 2 ^ 32)
    (hn : 2 ≤ effectiveMips w h n) (hx : x < w / 2) (hy : y < h / 2) (hc : c < 4) :
    ((GenerateMips_RGBA_InPlace pInOut w h n).mem
      (4 * w * h + 4 * (y * (w / 2) + x) + c)).val =
      ((pInOut (4 * ((2 * y) * w + 2 * x) + c)).val +
       (pInOut (4 * ((2 * y) * w + (2 * x + 1)) + c)).val +
       (pInOut (4 * ((2 * y + 1) * w + 2 * x) + c)).val +
       (pInOut (4 * ((2 * y + 1) * w + (2 * x + 1)) + c)).val) / 4 ∧
    (∀ q, q < 4 * w * h → (GenerateMips_RGBA_InPlace pInOut w h n).mem q = pInOut q) ∧
    ((GenerateMips_RGBA_InPlace (fun q => if q = 0 ∨ q = 4 ∨ q = 8 then 1 else 0) 2 2 2).mem
      16).val = 0 := by
  obtain ⟨h1, h2⟩ := InPlace_level_one pInOut w h n x y c hw hh hov hn hx hy hc
  refine ⟨?_, h2, by decide⟩
  have h2w : 2 * w ≤ w * h := by rw [Nat.mul_comm w h]; exact Nat.mul_le_mul_right w hh
  have hassoc : 4 * w * h = 4 * (w * h) := Nat.mul_assoc 4 w h
  rw [h1, boxAvg_val _ _ _ _ _ (by simp only [UINT_SIZE]; omega)]
  obtain ⟨v, hv⟩ : ∃ v, w = 2 * v := ⟨w / 2, by omega⟩
  subst hv
  have hv2 : 2 * v / 2 = v := by omega
  rw [hv2]
  have a0 : 16 * v * y + (8 * x + c) = 4 * (2 * y * (2 * v) + 2 * x) + c := by ring
  have a1 : 16 * v * y + (8 * x + c + 4) = 4 * (2 * y * (2 * v) + (2 * x + 1)) + c := by ring
  have a2 : 16 * v * y + 8 * v + (8 * x + c) = 4 * ((2 * y + 1) * (2 * v) + 2 * x) + c := by
    ring
  have a3 : 16 * v * y + 8 * v + (8 * x + c + 4) =
      4 * ((2 * y + 1) * (2 * v) + (2 * x + 1)) + c := by ring
  rw [a0, a1, a2, a3]

/-- Witness of C5 amended: texel (1,0), channel 2 of level 1 of a 4 x 2 image. -/
theorem box_filter_even_witness :
    ((GenerateMips_RGBA_InPlace (fun q => toByte (q * q)) 4 2 2).mem
      (4 * 4 * 2 + 4 * (0 * (4 / 2) + 1) + 2)).val =
      (((fun q => toByte (q * q)) (4 * ((2 * 0) * 4 + 2 * 1) + 2)).val +
       ((fun q => toByte (q * q)) (4 * ((2 * 0) * 4 + (2 * 1 + 1)) + 2)).val +
       ((fun q => toByte (q * q)) (4 * ((2 * 0 + 1) * 4 + 2 * 1) + 2)).val +
       ((fun q => toByte (q * q)) (4 * ((2 * 0 + 1) * 4 + (2 * 1 + 1)) + 2)).val) / 4 ∧
    (∀ q, q < 4 * 4 * 2 →
      (GenerateMips_RGBA_InPlace (fun q => toByte (q * q)) 4 2 2).mem q =
        (fun q => toByte (q * q)) q) ∧
    ((GenerateMips_RGBA_InPlace (fun q => if q = 0 ∨ q = 4 ∨ q = 8 then 1 else 0) 2 2 2).mem
      16).val = 0 :=
  box_filter_even (fun q => toByte (q * q)) 4 2 2 1 0 2 (by decide) (by decide) (by decide)
    (by decide) (by decide) (by decide) (by decide) (by decide) (by decide)

/-- C6, the code at a failing input. For a 3 x 2 image whose only non-zero byte is
channel 0 of texel (2,0) (offset 8, value 200) and mip count 2, channel 0 of level-1
texel (0,0) (offset 24) is 50: the code reads rows 8 bytes apart, so its four source
texels are those at offsets 0, 4, 8, 12, that is (0,0), (1,0), (2,0), (0,1). The
footprint (0,0), (1,0), (0,1), (1,1) at the true row stride of 3 texels (offsets 0, 4,
12, 16) averages to 0, and the trailing column texel (2,0) does contribute. -/
theorem box_filter_odd_width_stride :
    ((GenerateMips_RGBA_InPlace (spike 8 200) 3 2 2).mem
      (4 * 3 * 2 + 4 * (0 * (3 / 2) + 0) + 0)).val = 50 ∧
    ((spike 8 200 (4 * ((2 * 0) * 3 + 2 * 0) + 0)).val +
     (spike 8 200 (4 * ((2 * 0) * 3 + (2 * 0 + 1)) + 0)).val +
     (spike 8 200 (4 * ((2 * 0 + 1) * 3 + 2 * 0) + 0)).val +
     (spike 8 200 (4 * ((2 * 0 + 1) * 3 + (2 * 0 + 1)) + 0)).val) / 4 = 0 ∧
    ((GenerateMips_RGBA_InPlace (spike 8 200) 3 2 2).mem 24).val =
      ((spike 8 200 0).val + (spike 8 200 4).val + (spike 8 200 8).val +
       (spike 8 200 12).val) / 4 ∧
    (GenerateMips_RGBA_InPlace (spike 8 200) 3 2 2).reads.take 4 = [0, 4, 8, 12] ∧
    (GenerateMips_RGBA_InPlace (spike 8 200) 3 2 2).writes.length = 4 * ((3 / 2) * (2 / 2)) := by
  decide


/-! ## Sobel3x3 -/

theorem flat_index_inj (w r i y x : Nat) (hi : i < w) (hx : x < w)
    (h : r * w + i = y * w + x) : r = y ∧ i = x := by
  have hry : r = y := by
    rcases Nat.lt_trichotomy r y with hlt | heq | hgt
    · have h1 : (r + 1) * w ≤ y * w := Nat.mul_le_mul_right _ hlt
      have e : (r + 1) * w = r * w + w := by ring
      omega
    · exact heq
    · have h1 : (y + 1) * w ≤ r * w := Nat.mul_le_mul_right _ hgt
      have e : (y + 1) * w = y * w + w := by ring
      omega
  subst hry
  exact ⟨rfl, by omega⟩

theorem flat_index_lt (w h y x : Nat) (hy : y < h) (hx : x < w) : y * w + x < w * h := by
  have h1 : (y + 1) * w ≤ h * w := Nat.mul_le_mul_right _ hy
  have e : (y + 1) * w = y * w + w := by ring
  have e2 : h * w = w * h := Nat.mul_comm _ _
  omega

theorem sobelTexel_done (pHeightIn : Nat → ℚ) (scale : ℚ) (width height y x : Nat)
    (s : SobelState) (hy : y < height) (hx : x < width)
    (hfit : 2 * (width * height) < 2 ^ 64)
    (h : SobelDone pHeightIn scale width height s.grad (y * width + x)) :
    SobelDone pHeightIn scale width height
      (sobelTexel pHeightIn scale width y ((sobelIdx0 height y * width) % SIZE_T_SIZE)
        ((y * width) % SIZE_T_SIZE) ((sobelIdx2 height y * width) % SIZE_T_SIZE) x s).grad
      (y * width + x + 1) := by
  have hflat := flat_index_lt width height y x hy hx
  have hpix : (2 * (y * width + x)) % SIZE_T_SIZE = 2 * (y * width + x) :=
    Nat.mod_eq_of_lt (by simp only [SIZE_T_SIZE]; omega)
  intro r i hi hlt
  simp only [sobelTexel, hpix, Nat.add_zero]
  by_cases heq : r * width + i = y * width + x
  · obtain ⟨hr, hix⟩ := flat_index_inj width r i y x hi hx heq
    subst hr; subst hix
    constructor
    · rw [Function.update_noteq (by omega), Function.update_same]
      rfl
    · rw [Function.update_same]
      rfl
  · have hlt2 : r * width + i < y * width + x := by omega
    obtain ⟨h1, h2⟩ := h r i hi hlt2
    constructor
    · rw [Function.update_noteq (by omega), Function.update_noteq (by omega)]
      exact h1
    · rw [Function.update_noteq (by omega), Function.update_noteq (by omega)]
      exact h2

theorem sobelRow_done (pHeightIn : Nat → ℚ) (scale : ℚ) (width height y : Nat)
    (s : SobelState) (hy : y < height) (hfit : 2 * (width * height) < 2 ^ 64)
    (h : SobelDone pHeightIn scale width height s.grad (y * width)) :
    SobelDone pHeightIn scale width height
      (sobelRow pHeightIn scale width height y s).grad ((y + 1) * width) := by
  have e : (y + 1) * width = y * width + width := by ring
  rw [e]
  unfold sobelRow
  exact forUpTo_induction
    (fun x (t : SobelState) => SobelDone pHeightIn scale width height t.grad (y * width + x))
    width _ s h
    (fun x t hx ht => sobelTexel_done pHeightIn scale width height y x t hy hx hfit ht)

/-- Final content of the gradient buffer: when the 2*width*height output floats are
addressable, the two floats of every texel are the values the code forms for it. -/
theorem Sobel3x3_grad (pGradOut pHeightIn : Nat → ℚ) (scale : ℚ) (width height y x : Nat)
    (hy : y < height) (hx : x < width) (hfit : 2 * (width * height) < 2 ^ 64) :
    (Sobel3x3 pGradOut pHeightIn scale width height).grad (2 * (y * width + x)) =
      sobelGradX pHeightIn scale width height y x ∧
    (Sobel3x3 pGradOut pHeightIn scale width height).grad (2 * (y * width + x) + 1) =
      sobelGradY pHeightIn scale width height y x := by
  have hall : SobelDone pHeightIn scale width height
      (Sobel3x3 pGradOut pHeightIn scale width height).grad (height * width) := by
    unfold Sobel3x3
    refine forUpTo_induction
      (fun r (t : SobelState) => SobelDone pHeightIn scale width height t.grad (r * width))
      height _ _ ?_ ?_
    · intro r i _ hlt
      simp at hlt
    · intro r t hr ht
      exact sobelRow_done pHeightIn scale width height r t hr hfit ht
  have hflat := flat_index_lt width height y x hy hx
  exact hall y x hx (by rw [Nat.mul_comm height width]; exact hflat)

theorem sizePred_pos (x : Nat) (h1 : 1 ≤ x) (hx : x < 2 ^ 64) : sizePred x = x - 1 := by
  unfold sizePred
  simp only [SIZE_T_SIZE]
  omega

theorem sizeSucc_lt (x : Nat) (hx : x + 1 < 2 ^ 64) : sizeSucc x = x + 1 := by
  unfold sizeSucc
  exact Nat.mod_eq_of_lt hx

/-- For 1 <= x < width the index x0 is x - 1. -/
theorem sobelIdx0_pos (width x : Nat) (h1 : 1 ≤ x) (hx : x < width) (hw : width < 2 ^ 64) :
    sobelIdx0 width x = x - 1 := by
  unfold sobelIdx0
  rw [sizePred_pos x h1 (by omega)]
  exact Nat.mod_eq_of_lt (by omega)

/-- For x + 1 < width the index x2 is x + 1. -/
theorem sobelIdx2_inner (width x : Nat) (hx : x + 1 < width) (hw : width < 2 ^ 64) :
    sobelIdx2 width x = x + 1 := by
  unfold sobelIdx2
  rw [sizeSucc_lt x (by omega)]
  exact Nat.mod_eq_of_lt hx

/-- C9, the code at a failing input. For width 3 and x = 0 the value x - 1 is
2^64 - 1 in size_t, and (2^64 - 1) mod 3 is 0: the left neighbour of column 0 is
column 0 itself, not column (0 + 3 - 1) mod 3 = 2. The same holds for y0 with height 3.
In Sobel3x3 on a 3 x 3 field the first element read for texel (0,0), h0[x0], is
element 0 and not element 2*3 + 2 = 8. The right neighbour is as claimed. -/
theorem sobel_left_neighbour_width_3 :
    sizePred 0 = 2 ^ 64 - 1 ∧
    sobelIdx0 3 0 = 0 ∧
    (0 + 3 - 1) % 3 = 2 ∧
    sobelIdx0 3 0 ≠ (0 + 3 - 1) % 3 ∧
    sobelIdx2 3 0 = (0 + 1) % 3 ∧
    (Sobel3x3 (fun _ => 0) (fun _ => 0) 1 3 3).reads.take 1 = [0] := by
  decide

/-- C10. For width, height >= 3 whose 2*width*height output floats are addressable
(2*width*height < 2^64) and every interior texel (1 <= x <= width-2, 1 <= y <= height-2),
with exact numbers: Sobel3x3 leaves scale*dx/8 in gradOut[2*(y*width+x)] and scale*dy/8
in gradOut[2*(y*width+x)+1], where dx and dy are the two kernel sums over
H(i,j) = heightIn[j*width + i]. -/
theorem Sobel3x3_interior (pGradOut pHeightIn : Nat → ℚ) (scale : ℚ)
    (width height x y : Nat) (hw : 3 ≤ width) (hh : 3 ≤ height)
    (hx1 : 1 ≤ x) (hx2 : x ≤ width - 2) (hy1 : 1 ≤ y) (hy2 : y ≤ height - 2)
    (hfit : 2 * (width * height) < 2 ^ 64) :
    (Sobel3x3 pGradOut pHeightIn scale width height).grad (2 * (y * width + x)) =
      scale *
        ((pHeightIn ((y - 1) * width + (x - 1)) + 2 * pHeightIn (y * width + (x - 1)) +
            pHeightIn ((y + 1) * width + (x - 1))) -
         (pHeightIn ((y - 1) * width + (x + 1)) + 2 * pHeightIn (y * width + (x + 1)) +
            pHeightIn ((y + 1) * width + (x + 1)))) / 8 ∧
    (Sobel3x3 pGradOut pHeightIn scale width height).grad (2 * (y * width + x) + 1) =
      scale *
        ((pHeightIn ((y - 1) * width + (x - 1)) + 2 * pHeightIn ((y - 1) * width + x) +
            pHeightIn ((y - 1) * width + (x + 1))) -
         (pHeightIn ((y + 1) * width + (x - 1)) + 2 * pHeightIn ((y + 1) * width + x) +
            pHeightIn ((y + 1) * width + (x + 1)))) / 8 := by
  have hwh1 : width * 3 ≤ width * height := Nat.mul_le_mul_left _ hh
  have hwh2 : 3 * height ≤ width * height := Nat.mul_le_mul_right _ hw
  have hwlt : width < 2 ^ 64 := by omega
  have hhlt : height < 2 ^ 64 := by omega
  have hg := Sobel3x3_grad pGradOut pHeightIn scale width height y x (by omega) (by omega) hfit
  have f0 := flat_index_lt width height (y - 1) 0 (by omega) (by omega)
  have f1 := flat_index_lt width height y 0 (by omega) (by omega)
  have f2 := flat_index_lt width height (y + 1) 0 (by omega) (by omega)
  have ex0 := sobelIdx0_pos width x hx1 (by omega) hwlt
  have ex2 := sobelIdx2_inner width x (by omega) hwlt
  have ey0 := sobelIdx0_pos height y hy1 (by omega) hhlt
  have ey2 := sobelIdx2_inner height y (by omega) hhlt
  have m0 : ((y - 1) * width) % SIZE_T_SIZE = (y - 1) * width :=
    Nat.mod_eq_of_lt (by simp only [SIZE_T_SIZE]; omega)
  have m1 : (y * width) % SIZE_T_SIZE = y * width :=
    Nat.mod_eq_of_lt (by simp only [SIZE_T_SIZE]; omega)
  have m2 : ((y + 1) * width) % SIZE_T_SIZE = (y + 1) * width :=
    Nat.mod_eq_of_lt (by simp only [SIZE_T_SIZE]; omega)
  rw [hg.1, hg.2]
  unfold sobelGradX sobelGradY sobelDx sobelDy
  rw [ex0, ex2, ey0, ey2, m0, m1, m2]
  constructor <;> ring

/-- Witness of C10: the centre texel of a 3 x 3 field. -/
theorem Sobel3x3_interior_witness :
    (Sobel3x3 (fun _ => 0) (fun q => (q : ℚ) * q) 2 3 3).grad (2 * (1 * 3 + 1)) =
      2 *
        (((fun q : Nat => (q : ℚ) * q) ((1 - 1) * 3 + (1 - 1)) +
            2 * (fun q : Nat => (q : ℚ) * q) (1 * 3 + (1 - 1)) +
            (fun q : Nat => (q : ℚ) * q) ((1 + 1) * 3 + (1 - 1))) -
         ((fun q : Nat => (q : ℚ) * q) ((1 - 1) * 3 + (1 + 1)) +
            2 * (fun q : Nat => (q : ℚ) * q) (1 * 3 + (1 + 1)) +
            (fun q : Nat => (q : ℚ) * q) ((1 + 1) * 3 + (1 + 1)))) / 8 ∧
    (Sobel3x3 (fun _ => 0) (fun q => (q : ℚ) * q) 2 3 3).grad (2 * (1 * 3 + 1) + 1) =
      2 *
        (((fun q : Nat => (q : ℚ) * q) ((1 - 1) * 3 + (1 - 1)) +
            2 * (fun q : Nat => (q : ℚ) * q) ((1 - 1) * 3 + 1) +
            (fun q : Nat => (q : ℚ) * q) ((1 - 1) * 3 + (1 + 1))) -
         ((fun q : Nat => (q : ℚ) * q) ((1 + 1) * 3 + (1 - 1)) +
            2 * (fun q : Nat => (q : ℚ) * q) ((1 + 1) * 3 + 1) +
            (fun q : Nat => (q : ℚ) * q) ((1 + 1) * 3 + (1 + 1)))) / 8 :=
  Sobel3x3_interior (fun _ => 0) (fun q => (q : ℚ) * q) 2 3 3 1 1 (by decide) (by decide)
    (by decide) (by decide) (by decide) (by decide) (by decide)


/-! ## Further properties of the geometry functions and of the generators -/

/-- C13. A dimension of 0 is treated as 1 by both geometry functions: replacing any of
the zeros among (w, h, d) by 1 (the flags choose which) changes neither
CountTextureMips(w,h,d) nor CountTexturePixels(w,h,d,n); (1,1,1) and (0,0,0) both
give a mip count of 0 and a texel count of 0. -/
theorem zero_dimension_is_one (w h d n : Nat) (bw bh bd : Bool) :
    CountTextureMips (if bw then zeroToOne w else w) (if bh then zeroToOne h else h)
      (if bd then zeroToOne d else d) = CountTextureMips w h d ∧
    CountTexturePixels (if bw then zeroToOne w else w) (if bh then zeroToOne h else h)
      (if bd then zeroToOne d else d) n = CountTexturePixels w h d n ∧
    CountTextureMips 1 1 1 = 0 ∧ CountTextureMips 0 0 0 = 0 ∧
    CountTexturePixels 1 1 1 n = 0 ∧ CountTexturePixels 0 0 0 n = 0 := by
  have key : ∀ (b : Bool) (x : Nat), MAX (if b then zeroToOne x else x) 1 = MAX x 1 := by
    intro b x
    cases b
    · rfl
    · simp only [if_true, zeroToOne, MAX_eq_max]
      split <;> omega
  refine ⟨?_, ?_, by decide, by decide, rfl, rfl⟩
  · unfold CountTextureMips
    rw [key, key, key]
  · unfold CountTexturePixels
    simp only [key]

/-- C18. The argument nMips of CountTexturePixels has no effect on the result: the
accumulation loop is the same for every requested mip count. -/
theorem CountTexturePixels_ignores_nMips (w h d n1 n2 : Nat) :
    CountTexturePixels w h d n1 = CountTexturePixels w h d n2 ∧
    CountTexturePixels w h d n1 = pixelsLoop 32 (MAX w 1) (MAX h 1) (MAX d 1) 0 :=
  ⟨rfl, rfl⟩

/-- C20. The byte stored by the channel step of the sub-level loop (the only store of
that loop, shared by the two generators) lies between the smallest and the largest of
its four source bytes; the sum of the four is at most 1020, so sum >> 2 is at most 255
and the store to the byte does not wrap. -/
theorem stored_byte_between_sources (pL0 pL1 x c : Nat) (s : MipState) :
    srcMin s.mem pL0 pL1 x c ≤ ((chanStep pL0 pL1 x c s).mem s.pCurrentMip).val ∧
    ((chanStep pL0 pL1 x c s).mem s.pCurrentMip).val ≤ srcMax s.mem pL0 pL1 x c ∧
    boxSum s.mem pL0 pL1 x c ≤ 1020 ∧
    boxSum s.mem pL0 pL1 x c >>> 2 ≤ 255 ∧
    ((chanStep pL0 pL1 x c s).mem s.pCurrentMip).val = boxSum s.mem pL0 pL1 x c >>> 2 ∧
    (chanStep pL0 pL1 x c s).writes = s.writes ++ [s.pCurrentMip] := by
  have hst : ((chanStep pL0 pL1 x c s).mem s.pCurrentMip).val =
      (boxSum s.mem pL0 pL1 x c >>> 2) % 256 := by
    simp [chanStep, store, toByte]
  have ha := (s.mem (pL0 + (8 * x + c) % UINT_SIZE)).isLt
  have hb := (s.mem (pL0 + (8 * x + c + 4) % UINT_SIZE)).isLt
  have hc := (s.mem (pL1 + (8 * x + c) % UINT_SIZE)).isLt
  have hd := (s.mem (pL1 + (8 * x + c + 4) % UINT_SIZE)).isLt
  have hsum : boxSum s.mem pL0 pL1 x c =
      (s.mem (pL0 + (8 * x + c) % UINT_SIZE)).val +
      (s.mem (pL0 + (8 * x + c + 4) % UINT_SIZE)).val +
      (s.mem (pL1 + (8 * x + c) % UINT_SIZE)).val +
      (s.mem (pL1 + (8 * x + c + 4) % UINT_SIZE)).val := by
    unfold boxSum
    exact Nat.mod_eq_of_lt (by simp only [UINT_SIZE]; omega)
  rw [hst, hsum, Nat.shiftRight_eq_div_pow]
  unfold srcMin srcMax
  refine ⟨by omega, by omega, by omega, by omega, by omega, rfl⟩

/-- C17. GenerateMips_RGBA_InPlace does not modify the top-level image: when 4*w*h does
not wrap, for every mip count the bytes [0, 4*w*h) are the same before and after the
call; the offsets written are the consecutive offsets from 4*w*h on, each written once,
in increasing order; every byte outside that interval is unchanged. -/
theorem InPlace_frame (pInOut : Mem) (w h n : Nat) (hov : 4 * w * h < 2 ^ 32) :
    (∀ q, q < 4 * w * h → (GenerateMips_RGBA_InPlace pInOut w h n).mem q = pInOut q) ∧
    (GenerateMips_RGBA_InPlace pInOut w h n).writes =
      List.range' (4 * w * h) (4 * chainTexels (effectiveMips w h n - 1) w h) ∧
    (GenerateMips_RGBA_InPlace pInOut w h n).writes.Nodup ∧
    List.Pairwise (fun a b => a < b) (GenerateMips_RGBA_InPlace pInOut w h n).writes ∧
    (∀ q, q ∉ (GenerateMips_RGBA_InPlace pInOut w h n).writes →
      (GenerateMips_RGBA_InPlace pInOut w h n).mem q = pInOut q) := by
  have hP : (4 * w * h) % UINT_SIZE = 4 * w * h := Nat.mod_eq_of_lt hov
  have hadv := mipLevels_advanced (effectiveMips w h n - 1) w h
    { mem := pInOut, pCurrentMip := (4 * w * h) % UINT_SIZE, pTopMip := 0, reads := [],
      writes := [] }
  rw [hP] at hadv
  obtain ⟨_, hw, hm⟩ := hadv
  simp only [List.nil_append] at hw hm
  have hw2 : (GenerateMips_RGBA_InPlace pInOut w h n).writes =
      List.range' (4 * w * h) (4 * chainTexels (effectiveMips w h n - 1) w h) := by
    unfold GenerateMips_RGBA_InPlace
    rw [hP]
    exact hw
  have hm2 : ∀ q, q < 4 * w * h ∨ 4 * w * h + 4 * chainTexels (effectiveMips w h n - 1) w h ≤ q →
      (GenerateMips_RGBA_InPlace pInOut w h n).mem q = pInOut q := by
    intro q hq
    unfold GenerateMips_RGBA_InPlace
    rw [hP]
    exact hm q hq
  refine ⟨?_, hw2, ?_, ?_, ?_⟩
  · intro q hq
    exact hm2 q (Or.inl hq)
  · rw [hw2]; exact List.nodup_range' _ _
  · rw [hw2]; exact List.pairwise_lt_range' _ _
  · intro q hq
    rw [hw2, List.mem_range'_1] at hq
    exact hm2 q (by omega)

/-- Witness of C17 at a 4 x 4 image with the default mip count. -/
theorem InPlace_frame_witness :
    (∀ q, q < 4 * 4 * 4 → (GenerateMips_RGBA_InPlace (fun q => toByte q) 4 4 0).mem q =
      (fun q => toByte q) q) ∧
    (GenerateMips_RGBA_InPlace (fun q => toByte q) 4 4 0).writes =
      List.range' (4 * 4 * 4) (4 * chainTexels (effectiveMips 4 4 0 - 1) 4 4) ∧
    (GenerateMips_RGBA_InPlace (fun q => toByte q) 4 4 0).writes.Nodup ∧
    List.Pairwise (fun a b => a < b) (GenerateMips_RGBA_InPlace (fun q => toByte q) 4 4 0).writes ∧
    (∀ q, q ∉ (GenerateMips_RGBA_InPlace (fun q => toByte q) 4 4 0).writes →
      (GenerateMips_RGBA_InPlace (fun q => toByte q) 4 4 0).mem q = (fun q => toByte q) q) :=
  InPlace_frame (fun q => toByte q) 4 4 0 (by decide)

/-- C12, the code at a failing input. For a 1 x 8 image and the default mip count (3)
the buffer of 4 * (w*h + CountTexturePixels(w,h,1,0)) bytes has 88 bytes, and
GenerateMips_RGBA_InPlace reads offset 95: level 2 is read through pTopMip = 64 with rows
taken to be 2 texels wide, 32 bytes from offset 64 on. All writes stay below offset 56. -/
theorem InPlace_reads_past_buffer :
    effectiveMips 1 8 0 = 3 ∧
    4 * (1 * 8 + CountTexturePixels 1 8 1 0) = 88 ∧
    95 ∈ (GenerateMips_RGBA_InPlace (fun _ => 0) 1 8 0).reads ∧
    ¬ (95 < 4 * (1 * 8 + CountTexturePixels 1 8 1 0)) ∧
    (GenerateMips_RGBA_InPlace (fun _ => 0) 1 8 0).writes = List.range' 32 24 := by
  decide

/-- C15, the code at a failing input. For a 1 x 4 image (all input bytes 0) and the
default mip count (2), channel 0 of level-1 texel 1 (offset 20 of the output) is 0 when
the output buffer held zeros before the call and 191 when it held 255 everywhere: the
second output row is read through pTopMip = 16, that is from offsets 16, 20, 24, 28,
three of which were not written before they are read. -/
theorem RGB_To_RGBA_depends_on_old_output :
    effectiveMips 1 4 0 = 2 ∧
    (GenerateMips_RGB_To_RGBA (fun _ => 0) (fun _ => 0) 1 4 0).writes = List.range' 0 24 ∧
    (GenerateMips_RGB_To_RGBA (fun _ => 255) (fun _ => 0) 1 4 0).writes = List.range' 0 24 ∧
    ((GenerateMips_RGB_To_RGBA (fun _ => 0) (fun _ => 0) 1 4 0).mem 20).val = 0 ∧
    ((GenerateMips_RGB_To_RGBA (fun _ => 255) (fun _ => 0) 1 4 0).mem 20).val = 191 ∧
    (GenerateMips_RGB_To_RGBA (fun _ => 0) (fun _ => 0) 1 4 0).mem 20 ≠
      (GenerateMips_RGB_To_RGBA (fun _ => 255) (fun _ => 0) 1 4 0).mem 20 := by
  decide


/-! ## Sobel3x3: constant fields and buffer bounds -/

theorem sobelIdx0_lt (n x : Nat) (hn : 0 < n) : sobelIdx0 n x < n := Nat.mod_lt _ hn

theorem sobelIdx2_lt (n x : Nat) (hn : 0 < n) : sobelIdx2 n x < n := Nat.mod_lt _ hn

/-- An element of a row whose number is below height lies inside the height field. -/
theorem sobel_addr_lt (width height a b : Nat) (ha : a < height) (hb : b < width) :
    (a * width) % SIZE_T_SIZE + b < width * height := by
  have h1 := Nat.mod_le (a * width) SIZE_T_SIZE
  have h2 := flat_index_lt width height a b ha hb
  omega

/-- C11. For a height field that is constant over its width*height entries (exact
numbers), every scale, and dimensions whose 2*width*height output floats are addressable,
every one of the 2*width*height outputs of Sobel3x3 (output q, for every
q < 2*width*height) is 0. -/
theorem Sobel3x3_constant_field (pGradOut pHeightIn : Nat → ℚ) (scale v : ℚ)
    (width height q : Nat) (hfit : 2 * (width * height) < 2 ^ 64)
    (hconst : ∀ i, i < width * height → pHeightIn i = v)
    (hq : q < 2 * (width * height)) :
    (Sobel3x3 pGradOut pHeightIn scale width height).grad q = 0 := by
  have hwpos : 0 < width := by
    rcases Nat.eq_zero_or_pos width with h0 | h0
    · subst h0; simp at hq
    · exact h0
  have hhpos : 0 < height := by
    rcases Nat.eq_zero_or_pos height with h0 | h0
    · subst h0; simp at hq
    · exact h0
  have hi : q / 2 < width * height := by omega
  have hy : q / 2 / width < height := Nat.div_lt_of_lt_mul hi
  have hx : q / 2 % width < width := Nat.mod_lt _ hwpos
  have hflat : q / 2 / width * width + q / 2 % width = q / 2 := Nat.div_add_mod' _ _
  have hg := Sobel3x3_grad pGradOut pHeightIn scale width height (q / 2 / width)
    (q / 2 % width) hy hx hfit
  rw [hflat] at hg
  have hy0 := sobelIdx0_lt height (q / 2 / width) hhpos
  have hy2 := sobelIdx2_lt height (q / 2 / width) hhpos
  have hx0 := sobelIdx0_lt width (q / 2 % width) hwpos
  have hx2 := sobelIdx2_lt width (q / 2 % width) hwpos
  have hval : ∀ a b, a < height → b < width →
      pHeightIn ((a * width) % SIZE_T_SIZE + b) = v :=
    fun a b ha hb => hconst _ (sobel_addr_lt width height a b ha hb)
  have hX : sobelGradX pHeightIn scale width height (q / 2 / width) (q / 2 % width) = 0 := by
    unfold sobelGradX sobelDx
    rw [hval _ _ hy0 hx0, hval _ _ hy hx0, hval _ _ hy2 hx0, hval _ _ hy0 hx2,
      hval _ _ hy hx2, hval _ _ hy2 hx2]
    ring
  have hY : sobelGradY pHeightIn scale width height (q / 2 / width) (q / 2 % width) = 0 := by
    unfold sobelGradY sobelDy
    rw [hval _ _ hy0 hx0, hval _ _ hy0 hx, hval _ _ hy0 hx2, hval _ _ hy2 hx0,
      hval _ _ hy2 hx, hval _ _ hy2 hx2]
    ring
  rcases Nat.mod_two_eq_zero_or_one q with h0 | h1
  · have e : q = 2 * (q / 2) := by omega
    rw [e, hg.1, hX]
  · have e : q = 2 * (q / 2) + 1 := by omega
    rw [e, hg.2, hY]

/-- Witness of C11: output 11 (the last one) of a 3 x 2 field that is 7 everywhere,
scale 5. -/
theorem Sobel3x3_constant_field_witness :
    (Sobel3x3 (fun _ => 1) (fun _ => 7) 5 3 2).grad 11 = 0 :=
  Sobel3x3_constant_field (fun _ => 1) (fun _ => 7) 5 7 3 2 11 (by decide) (fun _ _ => rfl)
    (by decide)

theorem sobelTexel_logged (pHeightIn : Nat → ℚ) (scale : ℚ) (width height y x : Nat)
    (s : SobelState) (hy : y < height) (hx : x < width)
    (hfit : 2 * (width * height) < 2 ^ 64)
    (h : SobelLogged width height s (y * width + x)) :
    SobelLogged width height
      (sobelTexel pHeightIn scale width y ((sobelIdx0 height y * width) % SIZE_T_SIZE)
        ((y * width) % SIZE_T_SIZE) ((sobelIdx2 height y * width) % SIZE_T_SIZE) x s)
      (y * width + x + 1) := by
  have hflat := flat_index_lt width height y x hy hx
  have hpix : (2 * (y * width + x)) % SIZE_T_SIZE = 2 * (y * width + x) :=
    Nat.mod_eq_of_lt (by simp only [SIZE_T_SIZE]; omega)
  have hhpos : 0 < height := by omega
  have hwpos : 0 < width := by omega
  have hy0 := sobelIdx0_lt height y hhpos
  have hy2 := sobelIdx2_lt height y hhpos
  have hx0 := sobelIdx0_lt width x hwpos
  have hx2 := sobelIdx2_lt width x hwpos
  obtain ⟨hw, hr⟩ := h
  constructor
  · show s.writes ++ [_, _] = _
    rw [hw, hpix]
    have e : 2 * (y * width + x + 1) = 2 * (y * width + x) + 1 + 1 := by ring
    rw [e, List.range_succ, List.range_succ]
    simp
  · intro i hi
    have hi2 : i ∈ s.reads ∨ i ∈ _ := List.mem_append.mp hi
    rcases hi2 with h1 | h1
    · exact hr i h1
    · simp only [List.mem_cons, List.mem_singleton, List.not_mem_nil, or_false] at h1
      rcases h1 with e | e | e | e | e | e | e | e | e | e | e | e <;> rw [e]
      · exact sobel_addr_lt width height _ _ hy0 hx0
      · exact sobel_addr_lt width height _ _ hy hx0
      · exact sobel_addr_lt width height _ _ hy2 hx0
      · exact sobel_addr_lt width height _ _ hy0 hx2
      · exact sobel_addr_lt width height _ _ hy hx2
      · exact sobel_addr_lt width height _ _ hy2 hx2
      · exact sobel_addr_lt width height _ _ hy0 hx0
      · exact sobel_addr_lt width height _ _ hy0 hx
      · exact sobel_addr_lt width height _ _ hy0 hx2
      · exact sobel_addr_lt width height _ _ hy2 hx0
      · exact sobel_addr_lt width height _ _ hy2 hx
      · exact sobel_addr_lt width height _ _ hy2 hx2

theorem Sobel3x3_logged (pGradOut pHeightIn : Nat → ℚ) (scale : ℚ) (width height : Nat)
    (hfit : 2 * (width * height) < 2 ^ 64) :
    SobelLogged width height (Sobel3x3 pGradOut pHeightIn scale width height)
      (height * width) := by
  unfold Sobel3x3
  refine forUpTo_induction
    (fun r (t : SobelState) => SobelLogged width height t (r * width)) height _ _ ?_ ?_
  · refine ⟨by simp, ?_⟩
    intro i hi
    simp at hi
  · intro r t hr ht
    have e : (r + 1) * width = r * width + width := by ring
    rw [e]
    unfold sobelRow
    exact forUpTo_induction
      (fun x (u : SobelState) => SobelLogged width height u (r * width + x)) width _ t ht
      (fun x u hx hu => sobelTexel_logged pHeightIn scale width height r x u hr hx hfit hu)

/-- With a width or a height of 0 the loops of Sobel3x3 run no texel body: the state is
the initial one. -/
theorem Sobel3x3_empty (pGradOut pHeightIn : Nat → ℚ) (scale : ℚ) (width height : Nat)
    (h0 : width = 0 ∨ height = 0) :
    Sobel3x3 pGradOut pHeightIn scale width height =
      { grad := pGradOut, reads := [], writes := [] } := by
  rcases h0 with hw | hh
  · subst hw
    unfold Sobel3x3
    exact forUpTo_induction
      (fun _ (t : SobelState) => t = { grad := pGradOut, reads := [], writes := [] })
      height _ _ rfl (fun r t _ ht => by rw [ht]; rfl)
  · subst hh
    rfl

/-- C19. Sobel3x3 stays inside its buffers: for every width and height whose
2*width*height output floats are addressable (0 included), every index read from the
height field is below width*height, every index written to the gradient output is
below 2*width*height, and the indices written are 0 .. 2*width*height-1, each exactly
once. With a width or height of 0 nothing is read or written and no loop body (none of
the modulo operations) is run. -/
theorem Sobel3x3_in_bounds (pGradOut pHeightIn : Nat → ℚ) (scale : ℚ) (width height : Nat)
    (hfit : 2 * (width * height) < 2 ^ 64) :
    (∀ i, i ∈ (Sobel3x3 pGradOut pHeightIn scale width height).reads → i < width * height) ∧
    (∀ i, i ∈ (Sobel3x3 pGradOut pHeightIn scale width height).writes →
      i < 2 * (width * height)) ∧
    (Sobel3x3 pGradOut pHeightIn scale width height).writes =
      List.range (2 * (width * height)) ∧
    (∀ i, i < 2 * (width * height) →
      (Sobel3x3 pGradOut pHeightIn scale width height).writes.count i = 1) ∧
    (width = 0 ∨ height = 0 →
      Sobel3x3 pGradOut pHeightIn scale width height =
        { grad := pGradOut, reads := [], writes := [] }) := by
  obtain ⟨hw, hr⟩ := Sobel3x3_logged pGradOut pHeightIn scale width height hfit
  rw [Nat.mul_comm height width] at hw
  refine ⟨hr, ?_, hw, ?_, Sobel3x3_empty pGradOut pHeightIn scale width height⟩
  · intro i hi
    rw [hw] at hi
    exact List.mem_range.mp hi
  · intro i hi
    rw [hw]
    exact List.count_eq_one_of_mem (List.nodup_range _) (List.mem_range.mpr hi)

/-- Witness of C19 at a 3 x 2 field. -/
theorem Sobel3x3_in_bounds_witness :
    (∀ i, i ∈ (Sobel3x3 (fun _ => 0) (fun _ => 1) 1 3 2).reads → i < 3 * 2) ∧
    (∀ i, i ∈ (Sobel3x3 (fun _ => 0) (fun _ => 1) 1 3 2).writes → i < 2 * (3 * 2)) ∧
    (Sobel3x3 (fun _ => 0) (fun _ => 1) 1 3 2).writes = List.range (2 * (3 * 2)) ∧
    (∀ i, i < 2 * (3 * 2) → (Sobel3x3 (fun _ => 0) (fun _ => 1) 1 3 2).writes.count i = 1) ∧
    ((3 : Nat) = 0 ∨ (2 : Nat) = 0 →
      Sobel3x3 (fun _ => 0) (fun _ => 1) 1 3 2 =
        { grad := fun _ => 0, reads := [], writes := [] }) :=
  Sobel3x3_in_bounds (fun _ => 0) (fun _ => 1) 1 3 2 (by decide)


/-! ## Box filter: one level whose source rows do not overlap the rows written -/

theorem boxSum_congr_range (m1 m2 : Mem) (pL0 pL1 x c : Nat) (hle : pL0 ≤ pL1)
    (hagree : ∀ q, pL0 ≤ q → q ≤ pL1 + (8 * x + c + 4) → m1 q = m2 q) :
    boxSum m1 pL0 pL1 x c = boxSum m2 pL0 pL1 x c := by
  have ha := Nat.mod_le (8 * x + c) UINT_SIZE
  have hb := Nat.mod_le (8 * x + c + 4) UINT_SIZE
  unfold boxSum
  rw [hagree _ (by omega) (by omega), hagree _ (by omega) (by omega),
    hagree _ (by omega) (by omega), hagree _ (by omega) (by omega)]

theorem chanStep_rowFilled_disj (s t : MipState) (pL0 cw x c K : Nat) (hc : c < 4)
    (hx : x < cw) (hK : 4 * x + c < K)
    (hdis : pL0 + 16 * cw ≤ s.pCurrentMip ∨ s.pCurrentMip + K ≤ pL0)
    (h : RowFilled s t pL0 (pL0 + 8 * cw) (4 * x + c)) :
    RowFilled s (chanStep pL0 (pL0 + 8 * cw) x c t) pL0 (pL0 + 8 * cw) (4 * x + c + 1) := by
  obtain ⟨hadv, htop, hcont⟩ := h
  refine ⟨Advanced_trans hadv (chanStep_advanced pL0 (pL0 + 8 * cw) x c t), htop, ?_⟩
  intro j hj
  show store t.mem t.pCurrentMip _ (s.pCurrentMip + j) = _
  unfold store
  rw [hadv.1]
  by_cases hjk : j = 4 * x + c
  · rw [if_pos (by omega)]
    have hx4 : j / 4 = x := by omega
    have hcc : j % 4 = c := by omega
    rw [hx4, hcc, boxSum_congr_range t.mem s.mem pL0 (pL0 + 8 * cw) x c (by omega)
      (fun q h1 h2 => hadv.2.2 q (by omega))]
  · rw [if_neg (by omega)]
    exact hcont j (by omega)

theorem rowTexels_rowFilled_disj (s : MipState) (pL0 cw K : Nat) (hK : 4 * cw ≤ K)
    (hdis : pL0 + 16 * cw ≤ s.pCurrentMip ∨ s.pCurrentMip + K ≤ pL0) :
    RowFilled s (rowTexels pL0 (pL0 + 8 * cw) cw s) pL0 (pL0 + 8 * cw) (4 * cw) := by
  unfold rowTexels
  refine forUpTo_induction (fun i t => RowFilled s t pL0 (pL0 + 8 * cw) (4 * i)) cw _ s
    ⟨Advanced_refl s, rfl, fun j hj => absurd hj (by omega)⟩ ?_
  intro x t hx ht
  have h4 : 4 * (x + 1) = 4 * x + 4 := by omega
  rw [h4]
  exact forUpTo_induction (fun j u => RowFilled s u pL0 (pL0 + 8 * cw) (4 * x + j)) 4
    (fun c u => chanStep pL0 (pL0 + 8 * cw) x c u) t ht
    (fun c u hc hu => chanStep_rowFilled_disj s u pL0 cw x c K hc hx (by omega) hdis hu)

theorem mipRow_levelFilled_disj (s t : MipState) (cw ch y : Nat) (hy : y < ch)
    (hcw : 16 * cw < UINT_SIZE)
    (hdis : s.pTopMip + 16 * cw * ch ≤ s.pCurrentMip ∨
      s.pCurrentMip + 4 * (cw * ch) ≤ s.pTopMip)
    (h : LevelFilled s t cw y) : LevelFilled s (mipRow cw t) cw (y + 1) := by
  obtain ⟨hadv, htop, hcont⟩ := h
  have e8 : (8 * cw) % UINT_SIZE = 8 * cw := Nat.mod_eq_of_lt (by omega)
  have e16 : (16 * cw) % UINT_SIZE = 16 * cw := Nat.mod_eq_of_lt (by omega)
  have hy1 : 16 * cw * (y + 1) ≤ 16 * cw * ch := Nat.mul_le_mul_left _ hy
  have hy2 : 16 * cw * (y + 1) = 16 * cw * y + 16 * cw := by ring
  have hy3 : cw * (y + 1) ≤ cw * ch := Nat.mul_le_mul_left _ hy
  have hy4 : cw * (y + 1) = cw * y + cw := by ring
  have hrow := rowTexels_rowFilled_disj t t.pTopMip cw (4 * cw) (Nat.le_refl _)
    (by rw [htop, hadv.1]; omega)
  obtain ⟨radv, rtop, rcont⟩ := hrow
  have hadv2 : Advanced s (rowTexels t.pTopMip (t.pTopMip + 8 * cw) cw t)
      (4 * (cw * (y + 1))) := by
    have e : 4 * (cw * (y + 1)) = 4 * (cw * y) + 4 * cw := by ring
    rw [e]
    exact Advanced_trans hadv radv
  rw [mipRow_eq, e8, e16]
  refine ⟨⟨hadv2.1, hadv2.2.1, hadv2.2.2⟩, ?_, ?_⟩
  · show _ + _ = _
    rw [rtop, htop]
    ring
  · intro r x c hr hx hc
    show (rowTexels t.pTopMip (t.pTopMip + 8 * cw) cw t).mem _ = _
    by_cases hry : r < y
    · have hle : (r + 1) * cw ≤ y * cw := Nat.mul_le_mul_right _ hry
      have e1 : (r + 1) * cw = r * cw + cw := by ring
      have e2 : cw * y = y * cw := Nat.mul_comm _ _
      rw [radv.2.2 _ (Or.inl (by rw [hadv.1]; omega))]
      exact hcont r x c hry hx hc
    · have hreq : r = y := by omega
      subst hreq
      have e2 : cw * r = r * cw := Nat.mul_comm _ _
      have haddr : s.pCurrentMip + 4 * (r * cw + x) + c = t.pCurrentMip + (4 * x + c) := by
        rw [hadv.1]; omega
      have hx4 : (4 * x + c) / 4 = x := by omega
      have hc4 : (4 * x + c) % 4 = c := by omega
      rw [haddr, rcont (4 * x + c) (by omega), hx4, hc4, htop]
      rw [boxSum_congr_range t.mem s.mem _ _ x c (by omega)
        (fun q h1 h2 => hadv.2.2 q (by omega))]

/-- One level, source rows below the rows written or above them: when the index
arithmetic does not wrap, texel (x, r) of the generated level is the box average of the
bytes the code addresses, taken from the buffer as it was before the level. -/
theorem mipLevel_levelFilled_disj (s : MipState) (cw ch : Nat) (hcw : 16 * cw < UINT_SIZE)
    (hdis : s.pTopMip + 16 * cw * ch ≤ s.pCurrentMip ∨
      s.pCurrentMip + 4 * (cw * ch) ≤ s.pTopMip) :
    LevelFilled s (mipLevel cw ch s) cw ch := by
  unfold mipLevel
  refine forUpTo_induction (fun y t => LevelFilled s t cw y) ch _ s
    ⟨Advanced_refl s, by simp, fun r x c hr => absurd hr (by omega)⟩ ?_
  intro y t hy ht
  exact mipRow_levelFilled_disj s t cw ch y hy hcw hdis ht


/-! ## Power-of-two square images: uniform channels -/

theorem MAX_one_halve_pow (j : Nat) : MAX 1 (2 ^ (j + 1) >>> 1) = 2 ^ j := by
  have hp : 0 < 2 ^ j := Nat.pow_pos (by decide)
  rw [MAX_one_halve, pow_succ]
  omega

theorem pow_succ_sq (j : Nat) : 2 ^ (j + 1) * 2 ^ (j + 1) = 4 * (2 ^ j * 2 ^ j) := by
  rw [pow_succ]; ring

/-- Four equal source bytes average to that byte. -/
theorem boxAvg_uniform (m : Mem) (pL0 pL1 x c : Nat) (V : Byte)
    (hx : 8 * x + c + 4 < UINT_SIZE)
    (h0 : m (pL0 + (8 * x + c)) = V) (h1 : m (pL0 + (8 * x + c + 4)) = V)
    (h2 : m (pL1 + (8 * x + c)) = V) (h3 : m (pL1 + (8 * x + c + 4)) = V) :
    toByte (boxSum m pL0 pL1 x c >>> 2) = V := by
  apply Fin.ext
  rw [boxAvg_val m pL0 pL1 x c hx, h0, h1, h2, h3]
  omega

/-- One level of a square image whose channel c is V everywhere: channel c of the
generated level is V as well. -/
theorem mipLevel_uniform (s : MipState) (cw c : Nat) (V : Byte) (hc : c < 4)
    (hcw : 16 * cw < UINT_SIZE) (hT : s.pTopMip % 4 = 0)
    (hP : s.pCurrentMip = s.pTopMip + 16 * (cw * cw))
    (huni : ∀ q, s.pTopMip ≤ q → q < s.pCurrentMip → q % 4 = c → s.mem q = V) :
    ∀ q, s.pTopMip ≤ q → q < s.pCurrentMip + 4 * (cw * cw) → q % 4 = c →
      (mipLevel cw cw s).mem q = V := by
  have e16 : 16 * cw * cw = 16 * (cw * cw) := Nat.mul_assoc 16 cw cw
  obtain ⟨hadv, _, hcont⟩ := mipLevel_levelFilled s cw cw hcw (by rw [hP, e16])
  intro q hq1 hq2 hqc
  by_cases hlt : q < s.pCurrentMip
  · rw [hadv.2.2 q (Or.inl hlt)]
    exact huni q hq1 hlt hqc
  · have hcwpos : 0 < cw := by
      rcases Nat.eq_zero_or_pos cw with h0 | h0
      · subst h0; simp at hq2; omega
      · exact h0
    have ht : (q - s.pCurrentMip) / 4 < cw * cw := by omega
    have hr : (q - s.pCurrentMip) / 4 / cw < cw := Nat.div_lt_of_lt_mul ht
    have hx : (q - s.pCurrentMip) / 4 % cw < cw := Nat.mod_lt _ hcwpos
    have hflat : (q - s.pCurrentMip) / 4 / cw * cw + (q - s.pCurrentMip) / 4 % cw =
        (q - s.pCurrentMip) / 4 := Nat.div_add_mod' _ _
    have hq : q = s.pCurrentMip +
        4 * ((q - s.pCurrentMip) / 4 / cw * cw + (q - s.pCurrentMip) / 4 % cw) + c := by
      rw [hflat]; omega
    have hle : ((q - s.pCurrentMip) / 4 / cw + 1) * cw ≤ cw * cw :=
      Nat.mul_le_mul_right _ hr
    have e1 : ((q - s.pCurrentMip) / 4 / cw + 1) * cw =
        cw * ((q - s.pCurrentMip) / 4 / cw) + cw := by ring
    have e2 : 16 * cw * ((q - s.pCurrentMip) / 4 / cw) =
        16 * (cw * ((q - s.pCurrentMip) / 4 / cw)) := Nat.mul_assoc _ _ _
    rw [hq, hcont _ _ c hr hx hc]
    apply boxAvg_uniform _ _ _ _ _ _ (by omega)
    · exact huni _ (by omega) (by omega) (by omega)
    · exact huni _ (by omega) (by omega) (by omega)
    · exact huni _ (by omega) (by omega) (by omega)
    · exact huni _ (by omega) (by omega) (by omega)

/-- The levels generated from a 2^j x 2^j image stored at pTopMip, with the write
pointer right after it: if channel c of the image is V everywhere, channel c of every
byte up to the final write pointer is V. -/
theorem mipLevels_uniform (c : Nat) (V : Byte) (hc : c < 4) (i : Nat) :
    ∀ (j : Nat) (s : MipState), i ≤ j → j ≤ 28 → s.pTopMip % 4 = 0 →
      s.pCurrentMip = s.pTopMip + 4 * (2 ^ j * 2 ^ j) →
      (∀ q, s.pTopMip ≤ q → q < s.pCurrentMip → q % 4 = c → s.mem q = V) →
      ∀ q, s.pTopMip ≤ q → q < (mipLevels i (2 ^ j) (2 ^ j) s).pCurrentMip → q % 4 = c →
        (mipLevels i (2 ^ j) (2 ^ j) s).mem q = V := by
  induction i with
  | zero => intro j s _ _ _ _ huni q h1 h2 h3; exact huni q h1 h2 h3
  | succ i ih =>
    intro j s hij hj hT hP huni q h1 h2 h3
    obtain ⟨j', rfl⟩ : ∃ j', j = j' + 1 := ⟨j - 1, by omega⟩
    rw [mipLevels_succ, MAX_one_halve_pow] at h2 ⊢
    have hpw : 2 ^ j' ≤ 2 ^ 27 := Nat.pow_le_pow_right (by decide) (by omega)
    have hsq := pow_succ_sq j'
    have hP2 : s.pCurrentMip = s.pTopMip + 16 * (2 ^ j' * 2 ^ j') := by rw [hP, hsq]; ring
    have hcw : 16 * 2 ^ j' < UINT_SIZE := by simp only [UINT_SIZE]; omega
    have e16 : (16 * 2 ^ j') % UINT_SIZE = 16 * 2 ^ j' := Nat.mod_eq_of_lt hcw
    have hlev := mipLevel_uniform s (2 ^ j') c V hc hcw hT hP2 huni
    obtain ⟨ladv, ltop⟩ := mipLevel_advanced (2 ^ j') (2 ^ j') s
    rw [e16] at ltop
    have ltop2 : (mipLevel (2 ^ j') (2 ^ j') s).pTopMip = s.pCurrentMip := by
      rw [ltop, hP2]; ring
    have hrest := mipLevels_advanced i (2 ^ j') (2 ^ j') (mipLevel (2 ^ j') (2 ^ j') s)
    by_cases hq : q < s.pCurrentMip
    · rw [hrest.2.2 q (Or.inl (by rw [ladv.1]; omega))]
      exact hlev q h1 (by omega) h3
    · refine ih j' (mipLevel (2 ^ j') (2 ^ j') s) (by omega) (by omega)
        (by rw [ltop2, hP2]; omega) (by rw [ltop2, ladv.1]) ?_ q (by rw [ltop2]; omega) h2 h3
      intro q' h1' h2' h3'
      rw [ltop2] at h1'
      rw [ladv.1] at h2'
      exact hlev q' (by omega) h2' h3'

/-- C14, amended (k <= 14, that is 4*w*h < 2^32). For w = h = 2^k with k <= 14, a mip
count in force of at most k+1, a channel c < 4 and a byte V: if channel c of every
top-level texel is V, then every byte of channel c that GenerateMips_RGBA_InPlace
writes, in every generated level, is V; the bytes written are those of the levels
1 .. n-1, stored from offset 4*w*h on. -/
theorem uniform_channel_no_drift (pInOut : Mem) (w k n c : Nat) (V : Byte) (hw : w = 2 ^ k)
    (hk : k ≤ 14) (hn : effectiveMips w w n ≤ k + 1) (hc : c < 4)
    (huni : ∀ i, i < w * w → pInOut (4 * i + c) = V) :
    (∀ q, q ∈ (GenerateMips_RGBA_InPlace pInOut w w n).writes → q % 4 = c →
      (GenerateMips_RGBA_InPlace pInOut w w n).mem q = V) ∧
    (GenerateMips_RGBA_InPlace pInOut w w n).writes =
      List.range' (4 * (w * w)) (4 * chainTexels (effectiveMips w w n - 1) w w) := by
  subst hw
  have hpw : 2 ^ k ≤ 2 ^ 14 := Nat.pow_le_pow_right (by decide) hk
  have hsq : 2 ^ k * 2 ^ k ≤ 2 ^ 14 * 2 ^ 14 := Nat.mul_le_mul hpw hpw
  have hassoc : 4 * 2 ^ k * 2 ^ k = 4 * (2 ^ k * 2 ^ k) := Nat.mul_assoc _ _ _
  have hP : (4 * 2 ^ k * 2 ^ k) % UINT_SIZE = 4 * (2 ^ k * 2 ^ k) := by
    rw [hassoc]
    exact Nat.mod_eq_of_lt (by simp only [UINT_SIZE]; omega)
  have hadv := mipLevels_advanced (effectiveMips (2 ^ k) (2 ^ k) n - 1) (2 ^ k) (2 ^ k)
    { mem := pInOut, pCurrentMip := 4 * (2 ^ k * 2 ^ k), pTopMip := 0, reads := [],
      writes := [] }
  have huni2 := mipLevels_uniform c V hc (effectiveMips (2 ^ k) (2 ^ k) n - 1) k
    { mem := pInOut, pCurrentMip := 4 * (2 ^ k * 2 ^ k), pTopMip := 0, reads := [],
      writes := [] } (by omega) (by omega) rfl (by simp)
    (by intro q _ h2 h3
        have e : q = 4 * (q / 4) + c := by omega
        show pInOut q = V
        rw [e]
        exact huni (q / 4) (by simp only at h2; omega))
  obtain ⟨hp, hwr, _⟩ := hadv
  simp only [List.nil_append] at hp hwr
  unfold GenerateMips_RGBA_InPlace
  simp only [hP]
  refine ⟨?_, hwr⟩
  intro q hq hqc
  rw [hwr, List.mem_range'_1] at hq
  exact huni2 q (Nat.zero_le _) (by rw [hp]; exact hq.2) hqc

/-- Witness of C14 amended: a 4 x 4 image whose channel 1 is 9 everywhere, default
mip count. -/
theorem uniform_channel_no_drift_witness :
    (∀ q, q ∈ (GenerateMips_RGBA_InPlace (fun q => if q % 4 = 1 then 9 else toByte q) 4 4 0).writes
      → q % 4 = 1 →
      (GenerateMips_RGBA_InPlace (fun q => if q % 4 = 1 then 9 else toByte q) 4 4 0).mem q = 9) ∧
    (GenerateMips_RGBA_InPlace (fun q => if q % 4 = 1 then 9 else toByte q) 4 4 0).writes =
      List.range' (4 * (4 * 4)) (4 * chainTexels (effectiveMips 4 4 0 - 1) 4 4) :=
  uniform_channel_no_drift (fun q => if q % 4 = 1 then 9 else toByte q) 4 2 0 1 9 (by decide)
    (by decide) (by decide) (by decide)
    (fun i _ => if_pos (by omega))


theorem InPlace_three_eq (m : Mem) (w h : Nat) :
    GenerateMips_RGBA_InPlace m w h 3 =
      mipLevel (MAX 1 (MAX 1 (w >>> 1) >>> 1)) (MAX 1 (MAX 1 (h >>> 1) >>> 1))
        (mipLevel (MAX 1 (w >>> 1)) (MAX 1 (h >>> 1))
          { mem := m, pCurrentMip := (4 * w * h) % UINT_SIZE, pTopMip := 0, reads := [],
            writes := [] }) := rfl

/-- Mip count 3, when the rows read for level 2 lie above everything written and hold
the byte v: the first byte of level 2 is v. -/
theorem InPlace_second_level_first_byte (m : Mem) (w h cw ch cw2 ch2 P0 : Nat) (v : Byte)
    (hP0 : (4 * w * h) % UINT_SIZE = P0) (hcw : MAX 1 (w >>> 1) = cw)
    (hch : MAX 1 (h >>> 1) = ch) (hcw2 : MAX 1 (cw >>> 1) = cw2)
    (hch2 : MAX 1 (ch >>> 1) = ch2) (h16 : 16 * cw < UINT_SIZE) (h16b : 16 * cw2 < UINT_SIZE)
    (hpos : 0 < cw2) (hposh : 0 < ch2)
    (hdis : P0 + 4 * (cw * ch) + 4 * (cw2 * ch2) ≤ ch * (16 * cw))
    (hmem : ∀ q, ch * (16 * cw) ≤ q → m q = v) :
    (GenerateMips_RGBA_InPlace m w h 3).mem (P0 + 4 * (cw * ch)) = v := by
  rw [InPlace_three_eq, hcw, hch, hcw2, hch2, hP0]
  obtain ⟨adv1, top1⟩ := mipLevel_advanced cw ch
    { mem := m, pCurrentMip := P0, pTopMip := 0, reads := [], writes := [] }
  rw [Nat.mod_eq_of_lt h16] at top1
  simp only [Nat.zero_add] at top1
  have hp1 := adv1.1
  simp only at hp1
  have hfr : ∀ q, ch * (16 * cw) ≤ q →
      (mipLevel cw ch
        { mem := m, pCurrentMip := P0, pTopMip := 0, reads := [], writes := [] }).mem q = v := by
    intro q hq
    rw [adv1.2.2 q (Or.inr (by simp only; omega))]
    exact hmem q hq
  obtain ⟨_, _, cont⟩ := mipLevel_levelFilled_disj
    (mipLevel cw ch { mem := m, pCurrentMip := P0, pTopMip := 0, reads := [], writes := [] })
    cw2 ch2 h16b (Or.inr (by rw [hp1, top1]; omega))
  have hc0 := cont 0 0 0 hposh hpos (by decide)
  simp only [Nat.zero_mul, Nat.mul_zero, Nat.add_zero] at hc0
  rw [hp1] at hc0
  rw [hc0]
  apply boxAvg_uniform _ _ _ _ _ _ (by decide)
  · exact hfr _ (by rw [top1]; omega)
  · exact hfr _ (by rw [top1]; omega)
  · exact hfr _ (by rw [top1]; omega)
  · exact hfr _ (by rw [top1]; omega)

/-- C14, refuted as stated (no bound on k). For k = 15, w = h = 32768, the uint product
4*w*h is 0: with mip count 3, level 1 is written from offset 0 on, over the top level,
and level 2 is written from offset 2^30 on while its source rows are read from offset
2^32 on, behind the top level. For a buffer that is 0 over the whole top level (so
channel 0 of every top-level texel is 0) and 255 behind it, the byte written at offset
2^30, channel 0 of the first texel of level 2, is 255 and not 0. -/
theorem uniform_channel_drifts_when_offset_wraps :
    (32768 : Nat) = 2 ^ 15 ∧
    (∀ i, i < 32768 * 32768 → twoTone (2 ^ 32) 0 255 (4 * i + 0) = 0) ∧
    (4 * 32768 * 32768) % UINT_SIZE = 0 ∧
    2 ^ 30 ∈ (GenerateMips_RGBA_InPlace (twoTone (2 ^ 32) 0 255) 32768 32768 3).writes ∧
    2 ^ 30 % 4 = 0 ∧
    (GenerateMips_RGBA_InPlace (twoTone (2 ^ 32) 0 255) 32768 32768 3).mem (2 ^ 30) = 255 ∧
    (GenerateMips_RGBA_InPlace (twoTone (2 ^ 32) 0 255) 32768 32768 3).mem (2 ^ 30) ≠ 0 := by
  have hval := InPlace_second_level_first_byte (twoTone (2 ^ 32) 0 255) 32768 32768
    16384 16384 8192 8192 0 255 (by decide) (by decide) (by decide) (by decide) (by decide)
    (by decide) (by decide) (by decide) (by decide) (by decide)
    (by intro q hq
        unfold twoTone
        rw [if_neg (by omega)])
  have e : 0 + 4 * (16384 * 16384) = 2 ^ 30 := by decide
  rw [e] at hval
  have hw := (mipLevels_advanced 2 32768 32768
    { mem := twoTone (2 ^ 32) 0 255, pCurrentMip := (4 * 32768 * 32768) % UINT_SIZE,
      pTopMip := 0, reads := [], writes := [] }).2.1
  have hmemb : 2 ^ 30 ∈
      (GenerateMips_RGBA_InPlace (twoTone (2 ^ 32) 0 255) 32768 32768 3).writes := by
    show 2 ^ 30 ∈ (mipLevels 2 32768 32768 _).writes
    rw [hw, List.nil_append, List.mem_range'_1]
    decide
  refine ⟨by decide, ?_, by decide, hmemb, by decide, hval, ?_⟩
  · intro i hi
    unfold twoTone
    rw [if_pos (by omega)]
  · rw [hval]
    decide


/-! ## Power-of-two square images: every level is the box filter of the one before -/

theorem half_pow_succ (j : Nat) : 2 ^ (j + 1) / 2 = 2 ^ j := by
  rw [pow_succ]; omega

theorem shr_pow_succ (j t : Nat) : 2 ^ (j + 1) >>> (t + 1) = 2 ^ j >>> t := by
  rw [Nat.shiftRight_succ_inside, half_pow_succ]

theorem chainStart_pow_succ (j t : Nat) :
    chainStart (t + 1) (2 ^ (j + 1)) (2 ^ (j + 1)) =
      2 ^ (j + 1) * 2 ^ (j + 1) + chainStart t (2 ^ j) (2 ^ j) := by
  show _ + chainStart t (2 ^ (j + 1) / 2) (2 ^ (j + 1) / 2) = _
  rw [half_pow_succ]

/-- Level m of the stored chain starts after the texels of the levels 0 .. m-1. -/
theorem chainStart_eq_sum (m : Nat) : ∀ (w h : Nat),
    chainStart m w h = ∑ j in Finset.range m, (w >>> j) * (h >>> j) := by
  induction m with
  | zero => intro w h; rfl
  | succ m ih =>
    intro w h
    rw [chainStart, ih, Finset.sum_range_succ']
    simp only [Nat.shiftRight_succ_inside, Nat.shiftRight_zero]
    rw [Nat.add_comm]

/-- For t < k the extent of level t of a 2^k image is twice that of level t+1. -/
theorem shr_pow_double (k t : Nat) (h : t + 1 ≤ k) : 2 ^ k >>> t = 2 * (2 ^ k >>> (t + 1)) := by
  rw [Nat.shiftRight_eq_div_pow, Nat.shiftRight_eq_div_pow,
    Nat.pow_div (by omega) (by decide), Nat.pow_div h (by decide)]
  have e : k - t = (k - (t + 1)) + 1 := by omega
  rw [e, pow_succ]
  ring

/-- The levels generated from a 2^j x 2^j image stored at pTopMip, with the write
pointer right after it: in the final buffer every texel of level m+1 is the box average
of the bytes of level m that the code addresses, the levels lying one after the other. -/
theorem mipLevels_pow2_chain (i : Nat) :
    ∀ (j : Nat) (s : MipState), i ≤ j → j ≤ 28 →
      s.pCurrentMip = s.pTopMip + 4 * (2 ^ j * 2 ^ j) →
      ∀ m x y c, m < i → x < 2 ^ j >>> (m + 1) → y < 2 ^ j >>> (m + 1) → c < 4 →
        (mipLevels i (2 ^ j) (2 ^ j) s).mem
          (s.pTopMip + 4 * (chainStart (m + 1) (2 ^ j) (2 ^ j) +
            (y * (2 ^ j >>> (m + 1)) + x)) + c) =
        toByte (boxSum (mipLevels i (2 ^ j) (2 ^ j) s).mem
          (s.pTopMip + 4 * chainStart m (2 ^ j) (2 ^ j) + 16 * (2 ^ j >>> (m + 1)) * y)
          (s.pTopMip + 4 * chainStart m (2 ^ j) (2 ^ j) + 16 * (2 ^ j >>> (m + 1)) * y +
            8 * (2 ^ j >>> (m + 1))) x c >>> 2) := by
  induction i with
  | zero => intro j s _ _ _ m x y c hm; omega
  | succ i ih =>
    intro j s hij hj hP m x y c hm hx hy hc
    obtain ⟨j', rfl⟩ : ∃ j', j = j' + 1 := ⟨j - 1, by omega⟩
    rw [mipLevels_succ, MAX_one_halve_pow]
    have hpw : 2 ^ j' ≤ 2 ^ 27 := Nat.pow_le_pow_right (by decide) (by omega)
    have hsq := pow_succ_sq j'
    have hcw : 16 * 2 ^ j' < UINT_SIZE := by simp only [UINT_SIZE]; omega
    have e16 : (16 * 2 ^ j') % UINT_SIZE = 16 * 2 ^ j' := Nat.mod_eq_of_lt hcw
    have e16b : 16 * 2 ^ j' * 2 ^ j' = 16 * (2 ^ j' * 2 ^ j') := Nat.mul_assoc _ _ _
    obtain ⟨ladv, ltop, lcont⟩ := mipLevel_levelFilled s (2 ^ j') (2 ^ j') hcw
      (by rw [hP, hsq, e16b]; omega)
    have ltop2 : (mipLevel (2 ^ j') (2 ^ j') s).pTopMip =
        s.pTopMip + 4 * (2 ^ (j' + 1) * 2 ^ (j' + 1)) := by
      rw [ltop, hsq, e16b]; omega
    have hrest := mipLevels_advanced i (2 ^ j') (2 ^ j') (mipLevel (2 ^ j') (2 ^ j') s)
    have hframe : ∀ q, q < s.pCurrentMip →
        (mipLevels i (2 ^ j') (2 ^ j') (mipLevel (2 ^ j') (2 ^ j') s)).mem q = s.mem q := by
      intro q hq
      rw [hrest.2.2 q (Or.inl (by rw [ladv.1]; omega))]
      exact ladv.2.2 q (Or.inl hq)
    cases m with
    | zero =>
      rw [shr_pow_succ, Nat.shiftRight_zero] at hx hy ⊢
      have hle : (y + 1) * 2 ^ j' ≤ 2 ^ j' * 2 ^ j' := Nat.mul_le_mul_right _ hy
      have e1 : (y + 1) * 2 ^ j' = y * 2 ^ j' + 2 ^ j' := by ring
      have e2 : 16 * 2 ^ j' * y = 16 * (y * 2 ^ j') := by ring
      have haddr : s.pTopMip + 4 * (chainStart (0 + 1) (2 ^ (j' + 1)) (2 ^ (j' + 1)) +
          (y * 2 ^ j' + x)) + c = s.pCurrentMip + 4 * (y * 2 ^ j' + x) + c := by
        rw [hP]
        show s.pTopMip + 4 * (2 ^ (j' + 1) * 2 ^ (j' + 1) + 0 + (y * 2 ^ j' + x)) + c = _
        omega
      have hsrc : s.pTopMip + 4 * chainStart 0 (2 ^ (j' + 1)) (2 ^ (j' + 1)) +
          16 * 2 ^ j' * y = s.pTopMip + 16 * 2 ^ j' * y := by
        show s.pTopMip + 4 * 0 + _ = _
        omega
      rw [haddr, hsrc, hrest.2.2 _ (Or.inl (by rw [ladv.1]; omega)), lcont y x c hy hx hc]
      rw [boxSum_congr _ s.mem _ _ x c s.pCurrentMip hframe (by rw [hP, hsq]; omega)
        (by rw [hP, hsq]; omega)]
    | succ m' =>
      rw [shr_pow_succ] at hx hy ⊢
      rw [chainStart_pow_succ, chainStart_pow_succ]
      have ih' := ih j' (mipLevel (2 ^ j') (2 ^ j') s) (by omega) (by omega)
        (by rw [ltop2, ladv.1, hP, hsq]) m' x y c (by omega) hx hy hc
      rw [ltop2] at ih'
      have a1 : s.pTopMip + 4 * (2 ^ (j' + 1) * 2 ^ (j' + 1) +
          chainStart (m' + 1) (2 ^ j') (2 ^ j') + (y * (2 ^ j' >>> (m' + 1)) + x)) + c =
          s.pTopMip + 4 * (2 ^ (j' + 1) * 2 ^ (j' + 1)) +
            4 * (chainStart (m' + 1) (2 ^ j') (2 ^ j') + (y * (2 ^ j' >>> (m' + 1)) + x)) + c := by
        omega
      have a2 : s.pTopMip + 4 * (2 ^ (j' + 1) * 2 ^ (j' + 1) +
          chainStart m' (2 ^ j') (2 ^ j')) =
          s.pTopMip + 4 * (2 ^ (j' + 1) * 2 ^ (j' + 1)) +
            4 * chainStart m' (2 ^ j') (2 ^ j') := by
        omega
      rw [a1, a2]
      exact ih'


/-- The texels generated by i iterations from a 2^j x 2^j image end where level i+1 of
the stored chain would start. -/
theorem chainTexels_pow2 (i : Nat) : ∀ (j : Nat), i ≤ j →
    2 ^ j * 2 ^ j + chainTexels i (2 ^ j) (2 ^ j) = chainStart (i + 1) (2 ^ j) (2 ^ j) := by
  induction i with
  | zero => intro j _; rfl
  | succ i ih =>
    intro j hij
    obtain ⟨j', rfl⟩ : ∃ j', j = j' + 1 := ⟨j - 1, by omega⟩
    rw [chainStart_pow_succ, ← ih j' (by omega)]
    show _ + (MAX 1 (2 ^ (j' + 1) >>> 1) * MAX 1 (2 ^ (j' + 1) >>> 1) +
      chainTexels i (MAX 1 (2 ^ (j' + 1) >>> 1)) (MAX 1 (2 ^ (j' + 1) >>> 1))) = _
    rw [MAX_one_halve_pow]

/-- With mip count 2 every byte from the end of the one level written on is unchanged. -/
theorem InPlace_two_frame (m : Mem) (w h q : Nat)
    (hq : (4 * w * h) % UINT_SIZE + 4 * (MAX 1 (w >>> 1) * MAX 1 (h >>> 1)) ≤ q) :
    (GenerateMips_RGBA_InPlace m w h 2).mem q = m q := by
  have hadv := mipLevels_advanced 1 w h
    { mem := m, pCurrentMip := (4 * w * h) % UINT_SIZE, pTopMip := 0, reads := [],
      writes := [] }
  exact hadv.2.2 q (Or.inr (by simpa [chainTexels] using hq))

/-- C16, refuted as stated (no bound on k). For k = 15, w = h = 32768, the uint
product 4*w*h is 0, so with mip count 2 level 1 is written to the offsets below 2^30
and not from texel offset w*h on. For m = 1, x = 0, y = 4096, c = 0 the byte at texel
offset w*h + y*(w>>1) + x, which the claim takes for level-1 texel (x, y), keeps its old
value 255, while the four bytes of its footprint in level 0 are 0 in the final buffer. -/
theorem level_one_not_after_top_when_offset_wraps :
    (32768 : Nat) = 2 ^ 15 ∧
    (4 * 32768 * 32768) % UINT_SIZE = 0 ∧
    chainStart 1 32768 32768 = 32768 * 32768 ∧
    ((GenerateMips_RGBA_InPlace (spike (2 ^ 32 + 2 ^ 28) 255) 32768 32768 2).mem
      (4 * (chainStart 1 32768 32768 + (4096 * (32768 >>> 1) + 0)) + 0)).val = 255 ∧
    (((GenerateMips_RGBA_InPlace (spike (2 ^ 32 + 2 ^ 28) 255) 32768 32768 2).mem
        (4 * (chainStart (1 - 1) 32768 32768 +
          ((2 * 4096) * (32768 >>> (1 - 1)) + 2 * 0)) + 0)).val +
     ((GenerateMips_RGBA_InPlace (spike (2 ^ 32 + 2 ^ 28) 255) 32768 32768 2).mem
        (4 * (chainStart (1 - 1) 32768 32768 +
          ((2 * 4096) * (32768 >>> (1 - 1)) + (2 * 0 + 1))) + 0)).val +
     ((GenerateMips_RGBA_InPlace (spike (2 ^ 32 + 2 ^ 28) 255) 32768 32768 2).mem
        (4 * (chainStart (1 - 1) 32768 32768 +
          ((2 * 4096 + 1) * (32768 >>> (1 - 1)) + 2 * 0)) + 0)).val +
     ((GenerateMips_RGBA_InPlace (spike (2 ^ 32 + 2 ^ 28) 255) 32768 32768 2).mem
        (4 * (chainStart (1 - 1) 32768 32768 +
          ((2 * 4096 + 1) * (32768 >>> (1 - 1)) + (2 * 0 + 1))) + 0)).val) / 4 = 0 ∧
    ((GenerateMips_RGBA_InPlace (spike (2 ^ 32 + 2 ^ 28) 255) 32768 32768 2).mem
      (4 * (chainStart 1 32768 32768 + (4096 * (32768 >>> 1) + 0)) + 0)).val ≠
    (((GenerateMips_RGBA_InPlace (spike (2 ^ 32 + 2 ^ 28) 255) 32768 32768 2).mem
        (4 * (chainStart (1 - 1) 32768 32768 +
          ((2 * 4096) * (32768 >>> (1 - 1)) + 2 * 0)) + 0)).val +
     ((GenerateMips_RGBA_InPlace (spike (2 ^ 32 + 2 ^ 28) 255) 32768 32768 2).mem
        (4 * (chainStart (1 - 1) 32768 32768 +
          ((2 * 4096) * (32768 >>> (1 - 1)) + (2 * 0 + 1))) + 0)).val +
     ((GenerateMips_RGBA_InPlace (spike (2 ^ 32 + 2 ^ 28) 255) 32768 32768 2).mem
        (4 * (chainStart (1 - 1) 32768 32768 +
          ((2 * 4096 + 1) * (32768 >>> (1 - 1)) + 2 * 0)) + 0)).val +
     ((GenerateMips_RGBA_InPlace (spike (2 ^ 32 + 2 ^ 28) 255) 32768 32768 2).mem
        (4 * (chainStart (1 - 1) 32768 32768 +
          ((2 * 4096 + 1) * (32768 >>> (1 - 1)) + (2 * 0 + 1))) + 0)).val) / 4 := by
  rw [InPlace_two_frame _ _ _
      (4 * (chainStart 1 32768 32768 + (4096 * (32768 >>> 1) + 0)) + 0) (by decide),
    InPlace_two_frame _ _ _ (4 * (chainStart (1 - 1) 32768 32768 +
      ((2 * 4096) * (32768 >>> (1 - 1)) + 2 * 0)) + 0) (by decide),
    InPlace_two_frame _ _ _ (4 * (chainStart (1 - 1) 32768 32768 +
      ((2 * 4096) * (32768 >>> (1 - 1)) + (2 * 0 + 1))) + 0) (by decide),
    InPlace_two_frame _ _ _ (4 * (chainStart (1 - 1) 32768 32768 +
      ((2 * 4096 + 1) * (32768 >>> (1 - 1)) + 2 * 0)) + 0) (by decide),
    InPlace_two_frame _ _ _ (4 * (chainStart (1 - 1) 32768 32768 +
      ((2 * 4096 + 1) * (32768 >>> (1 - 1)) + (2 * 0 + 1))) + 0) (by decide)]
  decide

/-- C16, amended (k <= 14, that is 4*w*h < 2^32). For w = h = 2^k with k <= 14, a mip
count n in force of at most k+1 and every level m with 1 <= m < n: in the final buffer
of GenerateMips_RGBA_InPlace, level m starts at texel offset
sum over j = 0 .. m-1 of (w>>j)*(h>>j), right after level m-1, is (w>>m) texels wide,
and each of its texels (x, y), per channel, is the truncated average of the texels
(2x,2y), (2x+1,2y), (2x,2y+1), (2x+1,2y+1) of level m-1; the bytes written are the
consecutive bytes from the start of level 1 to the start of level n. -/
theorem levels_are_box_filters (pInOut : Mem) (w k n m x y c : Nat) (hw : w = 2 ^ k)
    (hk : k ≤ 14) (hn : effectiveMips w w n ≤ k + 1) (hm1 : 1 ≤ m)
    (hm : m < effectiveMips w w n) (hx : x < w >>> m) (hy : y < w >>> m) (hc : c < 4) :
    ((GenerateMips_RGBA_InPlace pInOut w w n).mem
      (4 * (chainStart m w w + (y * (w >>> m) + x)) + c)).val =
      (((GenerateMips_RGBA_InPlace pInOut w w n).mem
          (4 * (chainStart (m - 1) w w + ((2 * y) * (w >>> (m - 1)) + 2 * x)) + c)).val +
       ((GenerateMips_RGBA_InPlace pInOut w w n).mem
          (4 * (chainStart (m - 1) w w + ((2 * y) * (w >>> (m - 1)) + (2 * x + 1))) + c)).val +
       ((GenerateMips_RGBA_InPlace pInOut w w n).mem
          (4 * (chainStart (m - 1) w w + ((2 * y + 1) * (w >>> (m - 1)) + 2 * x)) + c)).val +
       ((GenerateMips_RGBA_InPlace pInOut w w n).mem
          (4 * (chainStart (m - 1) w w + ((2 * y + 1) * (w >>> (m - 1)) + (2 * x + 1))) + c)).val)
        / 4 ∧
    chainStart m w w = ∑ j in Finset.range m, (w >>> j) * (w >>> j) ∧
    (GenerateMips_RGBA_InPlace pInOut w w n).writes =
      List.range' (4 * chainStart 1 w w)
        (4 * chainStart (effectiveMips w w n) w w - 4 * chainStart 1 w w) := by
  subst hw
  obtain ⟨m', rfl⟩ : ∃ m', m = m' + 1 := ⟨m - 1, by omega⟩
  have hpw : 2 ^ k ≤ 2 ^ 14 := Nat.pow_le_pow_right (by decide) hk
  have hsq : 2 ^ k * 2 ^ k ≤ 2 ^ 14 * 2 ^ 14 := Nat.mul_le_mul hpw hpw
  have hassoc : 4 * 2 ^ k * 2 ^ k = 4 * (2 ^ k * 2 ^ k) := Nat.mul_assoc _ _ _
  have hP : (4 * 2 ^ k * 2 ^ k) % UINT_SIZE = 4 * (2 ^ k * 2 ^ k) := by
    rw [hassoc]
    exact Nat.mod_eq_of_lt (by simp only [UINT_SIZE]; omega)
  have hxle : 2 ^ k >>> (m' + 1) ≤ 2 ^ k := by
    rw [Nat.shiftRight_eq_div_pow]; exact Nat.div_le_self _ _
  have hchain := mipLevels_pow2_chain (effectiveMips (2 ^ k) (2 ^ k) n - 1) k
    { mem := pInOut, pCurrentMip := 4 * (2 ^ k * 2 ^ k), pTopMip := 0, reads := [],
      writes := [] } (by omega) (by omega) (by simp) m' x y c (by omega) hx hy hc
  have hadv := mipLevels_advanced (effectiveMips (2 ^ k) (2 ^ k) n - 1) (2 ^ k) (2 ^ k)
    { mem := pInOut, pCurrentMip := 4 * (2 ^ k * 2 ^ k), pTopMip := 0, reads := [],
      writes := [] }
  have hend := chainTexels_pow2 (effectiveMips (2 ^ k) (2 ^ k) n - 1) k (by omega)
  have heff : effectiveMips (2 ^ k) (2 ^ k) n - 1 + 1 = effectiveMips (2 ^ k) (2 ^ k) n := by
    omega
  rw [heff] at hend
  have hone : chainStart 1 (2 ^ k) (2 ^ k) = 2 ^ k * 2 ^ k := rfl
  unfold GenerateMips_RGBA_InPlace
  simp only [hP]
  refine ⟨?_, chainStart_eq_sum _ _ _, ?_⟩
  · simp only [Nat.zero_add] at hchain
    rw [hchain, boxAvg_val _ _ _ _ _ (by simp only [UINT_SIZE]; omega)]
    rw [Nat.add_sub_cancel, shr_pow_double k m' (by omega)]
    have a0 : 4 * chainStart m' (2 ^ k) (2 ^ k) + 16 * (2 ^ k >>> (m' + 1)) * y + (8 * x + c) =
        4 * (chainStart m' (2 ^ k) (2 ^ k) + (2 * y * (2 * (2 ^ k >>> (m' + 1))) + 2 * x)) + c := by
      ring
    have a1 : 4 * chainStart m' (2 ^ k) (2 ^ k) + 16 * (2 ^ k >>> (m' + 1)) * y +
        (8 * x + c + 4) =
        4 * (chainStart m' (2 ^ k) (2 ^ k) +
          (2 * y * (2 * (2 ^ k >>> (m' + 1))) + (2 * x + 1))) + c := by
      ring
    have a2 : 4 * chainStart m' (2 ^ k) (2 ^ k) + 16 * (2 ^ k >>> (m' + 1)) * y +
        8 * (2 ^ k >>> (m' + 1)) + (8 * x + c) =
        4 * (chainStart m' (2 ^ k) (2 ^ k) +
          ((2 * y + 1) * (2 * (2 ^ k >>> (m' + 1))) + 2 * x)) + c := by
      ring
    have a3 : 4 * chainStart m' (2 ^ k) (2 ^ k) + 16 * (2 ^ k >>> (m' + 1)) * y +
        8 * (2 ^ k >>> (m' + 1)) + (8 * x + c + 4) =
        4 * (chainStart m' (2 ^ k) (2 ^ k) +
          ((2 * y + 1) * (2 * (2 ^ k >>> (m' + 1))) + (2 * x + 1))) + c := by
      ring
    rw [a0, a1, a2, a3]
  · have hw := hadv.2.1
    simp only [List.nil_append] at hw
    rw [hw, hone]
    congr 1
    omega

/-- Witness of C16 amended: level 2 (1 x 1) of a 4 x 4 image, mip count 3. -/
theorem levels_are_box_filters_witness :
    ((GenerateMips_RGBA_InPlace (fun q => toByte (q * q)) 4 4 3).mem
      (4 * (chainStart 2 4 4 + (0 * (4 >>> 2) + 0)) + 1)).val =
      (((GenerateMips_RGBA_InPlace (fun q => toByte (q * q)) 4 4 3).mem
          (4 * (chainStart (2 - 1) 4 4 + ((2 * 0) * (4 >>> (2 - 1)) + 2 * 0)) + 1)).val +
       ((GenerateMips_RGBA_InPlace (fun q => toByte (q * q)) 4 4 3).mem
          (4 * (chainStart (2 - 1) 4 4 + ((2 * 0) * (4 >>> (2 - 1)) + (2 * 0 + 1))) + 1)).val +
       ((GenerateMips_RGBA_InPlace (fun q => toByte (q * q)) 4 4 3).mem
          (4 * (chainStart (2 - 1) 4 4 + ((2 * 0 + 1) * (4 >>> (2 - 1)) + 2 * 0)) + 1)).val +
       ((GenerateMips_RGBA_InPlace (fun q => toByte (q * q)) 4 4 3).mem
          (4 * (chainStart (2 - 1) 4 4 + ((2 * 0 + 1) * (4 >>> (2 - 1)) + (2 * 0 + 1))) + 1)).val)
        / 4 ∧
    chainStart 2 4 4 = ∑ j in Finset.range 2, (4 >>> j) * (4 >>> j) ∧
    (GenerateMips_RGBA_InPlace (fun q => toByte (q * q)) 4 4 3).writes =
      List.range' (4 * chainStart 1 4 4)
        (4 * chainStart (effectiveMips 4 4 3) 4 4 - 4 * chainStart 1 4 4) :=
  levels_are_box_filters (fun q => toByte (q * q)) 4 2 3 2 0 0 1 (by decide) (by decide)
    (by decide) (by decide) (by decide) (by decide) (by decide) (by decide)


end Simpleton
